import Mathlib

/-!
Verification development for the hamcws media-server client library.

The repository's browse-path core (rule records, the tree builder, the type
inferencer, the path matcher and the shorthand grammar parser) is exercised
by the repository's tests but its implementation module is not part of the
source snapshot, so those components are modelled from the specification
document; definitions carrying a doc comment starting with
"Modelled from the spec:" are such models.  The components that are present
in the source (MediaServerInfo equality, volume-level validation) are
translated directly from src/hamcws/hamcws.py.
-/

/-! ## Media type enumerations (hamcws.py, MediaType / MediaSubType) -/

/-- The MediaType enumeration from src/hamcws/hamcws.py (a Python StrEnum). -/
inductive MediaType where
  | NOT_AVAILABLE
  | VIDEO
  | AUDIO_
  | DATA
  | IMAGE
  | TV
  | PLAYLIST
deriving DecidableEq, Repr

/-- The string value of each MediaType member, as declared in the source. -/
def MediaType.toValue : MediaType → String
  | .NOT_AVAILABLE => ""
  | .VIDEO => "Video"
  | .AUDIO_ => "Audio"
  | .DATA => "Data"
  | .IMAGE => "Image"
  | .TV => "TV"
  | .PLAYLIST => "Playlist"

/-- Coercion of a string to a MediaType member (Python MediaType(value));
returns none where Python would raise ValueError. -/
def MediaType.ofValue (s : String) : Option MediaType :=
  if s = "" then some .NOT_AVAILABLE
  else if s = "Video" then some .VIDEO
  else if s = "Audio" then some .AUDIO_
  else if s = "Data" then some .DATA
  else if s = "Image" then some .IMAGE
  else if s = "TV" then some .TV
  else if s = "Playlist" then some .PLAYLIST
  else none

/-- The MediaSubType enumeration from src/hamcws/hamcws.py (a Python StrEnum). -/
inductive MediaSubType where
  | NOT_AVAILABLE
  | ADULT
  | ANIMATION
  | AUDIOBOOK
  | BOOK
  | CONCERT
  | EDUCATIONAL
  | ENTERTAINMENT
  | EXTRAS
  | HOME_VIDEO
  | KARAOKE
  | MOVIE
  | MUSIC
  | MUSIC_VIDEO
  | OTHER
  | PHOTO
  | PODCAST
  | RADIO_
  | RINGTONE
  | SHORT
  | SINGLE
  | SPORTS
  | STOCK
  | SYSTEM
  | TEST_CLIP
  | TRAILER
  | TV_SHOW
  | WORKOUT
deriving DecidableEq, Repr

/-- Coercion of a string to a MediaSubType member (Python MediaSubType(value));
returns none where Python would raise ValueError. -/
def MediaSubType.ofValue (s : String) : Option MediaSubType :=
  if s = "" then some .NOT_AVAILABLE
  else if s = "Adult" then some .ADULT
  else if s = "Animation" then some .ANIMATION
  else if s = "Audiobook" then some .AUDIOBOOK
  else if s = "Book" then some .BOOK
  else if s = "Concert" then some .CONCERT
  else if s = "Educational" then some .EDUCATIONAL
  else if s = "Entertainment" then some .ENTERTAINMENT
  else if s = "Extras" then some .EXTRAS
  else if s = "Home Video" then some .HOME_VIDEO
  else if s = "Karaoke" then some .KARAOKE
  else if s = "Movie" then some .MOVIE
  else if s = "Music" then some .MUSIC
  else if s = "Music Video" then some .MUSIC_VIDEO
  else if s = "Other" then some .OTHER
  else if s = "Photo" then some .PHOTO
  else if s = "Podcast" then some .PODCAST
  else if s = "Radio" then some .RADIO_
  else if s = "Ringtone" then some .RINGTONE
  else if s = "Short" then some .SHORT
  else if s = "Single" then some .SINGLE
  else if s = "Sports" then some .SPORTS
  else if s = "Stock" then some .STOCK
  else if s = "System" then some .SYSTEM
  else if s = "Test Clip" then some .TEST_CLIP
  else if s = "Trailer" then some .TRAILER
  else if s = "TV Show" then some .TV_SHOW
  else if s = "Workout" then some .WORKOUT
  else none

/-! ## MediaServerInfo equality (src/hamcws/hamcws.py lines 14-28) -/

/-- The data fields of MediaServerInfo as set by its constructor
(src/hamcws/hamcws.py lines 16-20).  The updated_at wall-clock timestamp is
abstracted as a natural number since only its irrelevance to equality is at
stake. -/
structure MediaServerInfo where
  version : String
  name : String
  platform : String
  updated_at : Nat
deriving DecidableEq, Repr

/-- A Python value that MediaServerInfo.__eq__ may be compared against:
either another MediaServerInfo, Python None, or a value of any other type
(abstracted by a tag). -/
inductive PyValue where
  | msi (m : MediaServerInfo)
  | pynone
  | other (tag : String)
deriving DecidableEq, Repr

/-- MediaServerInfo.__eq__ (src/hamcws/hamcws.py lines 25-28): if the other
operand is a MediaServerInfo, compare name and version; otherwise return
False. -/
def MediaServerInfo.eq (self : MediaServerInfo) (other : PyValue) : Bool :=
  match other with
  | .msi o => self.name == o.name && self.version == o.version
  | _ => false

/-! ## set_volume_level validation (src/hamcws/hamcws.py lines 396-403) -/

/-- The observable outcome of MediaServer.set_volume_level before any network
interaction is abstracted: either a ValueError is raised (carrying the
message), or a request to Playback/Volume with the given Level is issued.
Volumes are modelled as rationals; the source only compares them against 0
and 1. -/
inductive VolumeOutcome where
  | valueError (message : String)
  | request (path : String) (level : ℚ)
deriving DecidableEq, Repr

/-- MediaServer.set_volume_level (src/hamcws/hamcws.py lines 396-403): raise
ValueError if volume < 0, then if volume > 1, and only otherwise issue the
Playback/Volume request. -/
def set_volume_level (volume : ℚ) : VolumeOutcome :=
  if volume < 0 then .valueError (toString volume ++ " not in range 0-1")
  else if volume > 1 then .valueError (toString volume ++ " not in range 0-1")
  else .request "Playback/Volume" volume

/-! ## String helpers

The browse-path code splits strings on single-character separators
(backslash for rule paths, slash for full paths, comma and pipe for the
shorthand grammar).  These are modelled structurally over the character
list of the string, with Python semantics: splitting the empty string
yields a single empty segment. -/

/-- Split a character list at every occurrence of the separator; always
returns at least one (possibly empty) segment, like Python str.split. -/
def splitcAux (sep : Char) : List Char → List (List Char)
  | [] => [[]]
  | c :: cs =>
      let r := splitcAux sep cs
      if c = sep then [] :: r
      else
        match r with
        | [] => [[c]]
        | h :: t => (c :: h) :: t

/-- Split a string on a single-character separator (Python s.split(sep)). -/
def splitc (sep : Char) (s : String) : List String :=
  (splitcAux sep s.data).map List.asString

/-- Join a list of segments with the slash character (Python
"/".join(segments)); full paths of browse nodes are built this way. -/
def joinSegs : List String → String
  | [] => ""
  | [s] => s
  | s :: rest => s ++ "/" ++ joinSegs rest

/-- Drop characters up to and including the first occurrence of the token;
none when the token does not occur. -/
def dropAfterTok (tok : List Char) : List Char → Option (List Char)
  | [] => if tok.isEmpty then some [] else none
  | c :: cs =>
      if tok.isPrefixOf (c :: cs) then some ((c :: cs).drop tok.length)
      else dropAfterTok tok cs

/-! ## Predicate token extraction (Type Inferencer, spec section 4.3) -/

/-- Modelled from the spec: the fixed predicate token introducing an explicit
media type, of the form [Media Type]=[Value]. -/
def mediaTypeTok : List Char := "[Media Type]=[".data

/-- Modelled from the spec: the fixed predicate token introducing an explicit
media sub-type, of the form [Media Sub Type]=[Value]. -/
def mediaSubTypeTok : List Char := "[Media Sub Type]=[".data

/-- Modelled from the spec (section 4.3, Type Inferencer; the implementation
module is missing from the source snapshot): extract the value of the first
occurrence of a bracketed token from a search predicate. -/
def extractTokenValue (tok : List Char) (search : String) : Option String :=
  match dropAfterTok tok search.data with
  | none => none
  | some rest => some (rest.takeWhile (fun c => c ≠ ']')).asString

/-- Modelled from the spec: the explicit media types of a search predicate,
via the token [Media Type]=[Value]; empty when the token is absent or its
value is not a recognized MediaType (unrecognized tokens are not errors). -/
def extract_media_types (search : String) : List MediaType :=
  match extractTokenValue mediaTypeTok search with
  | none => []
  | some v =>
      match MediaType.ofValue v with
      | none => []
      | some m => [m]

/-- Modelled from the spec: the explicit media sub-types of a search
predicate, via the token [Media Sub Type]=[Value]; empty when the token is
absent or its value is not a recognized MediaSubType. -/
def extract_media_sub_types (search : String) : List MediaSubType :=
  match extractTokenValue mediaSubTypeTok search with
  | none => []
  | some v =>
      match MediaSubType.ofValue v with
      | none => []
      | some m => [m]

/-! ## BrowseRule (rule records, spec section 3; tests construct
BrowseRule(name, categories, search)) -/

/-- The separator used by the external service inside rule name and category
paths (default, per spec section 6). -/
def RULE_SEP : Char := '\\'

/-- A server-declared browse rule: a name path, a category path and a search
predicate, as constructed by the repository's tests. -/
structure BrowseRule where
  name : String
  categories : String
  search : String
deriving DecidableEq, Repr

/-- The name path split into segments; the empty name path yields no
segments (tests: BrowseRule with empty name has get_names() == []). -/
def BrowseRule.get_names (r : BrowseRule) : List String :=
  if r.name = "" then [] else splitc RULE_SEP r.name

/-- The category path split into segments; empty categories yield no
segments. -/
def BrowseRule.get_categories (r : BrowseRule) : List String :=
  if r.categories = "" then [] else splitc RULE_SEP r.categories

/-! ## BrowsePath (tree nodes, spec section 3) -/

/-- Modelled from the spec (section 3, BrowsePath; the implementation module
is missing from the source snapshot): a browse tree node with its name, its
field flag, the search predicate attached to it by a rule (empty if none),
its effective media classification (written by the type inferencer, empty
before inference) and its ordered children.  The parent back-reference of
the source is represented implicitly by the tree structure; explicit media
types are recoverable as extract_media_types of the stored search
predicate. -/
inductive BrowsePath where
  | mk (name : String) (is_field : Bool) (search : String)
      (effective_media_types : List MediaType)
      (effective_media_sub_types : List MediaSubType)
      (children : List BrowsePath)

def BrowsePath.name : BrowsePath → String
  | .mk n _ _ _ _ _ => n

def BrowsePath.is_field : BrowsePath → Bool
  | .mk _ f _ _ _ _ => f

def BrowsePath.search : BrowsePath → String
  | .mk _ _ s _ _ _ => s

def BrowsePath.effective_media_types : BrowsePath → List MediaType
  | .mk _ _ _ eT _ _ => eT

def BrowsePath.effective_media_sub_types : BrowsePath → List MediaSubType
  | .mk _ _ _ _ eST _ => eST

def BrowsePath.children : BrowsePath → List BrowsePath
  | .mk _ _ _ _ _ cs => cs

/-! ## Tree builder (spec section 4.2)

Each rule contributes one linear chain: its name segments as literal nodes
(the last carrying the rule's search predicate) followed by its category
segments as field nodes.  Inserting a rule is merging that chain into the
forest: siblings are kept sorted by name ascending, an existing child with
the same name is reused instead of duplicated, a node reached by a name
segment of some rule is literal (spec: is_field is true when the node
originated from a category chain rather than a literal named rule segment,
and the result is invariant under permutation of the rule list), and a
non-empty incoming search predicate is attached at the name-path leaf. -/

/-- Modelled from the spec: the strictly linear chain of field nodes built
from a rule's category segments. -/
def catChain : List String → List BrowsePath
  | [] => []
  | c :: rest => [.mk c true "" [] [] (catChain rest)]

/-- Modelled from the spec: the chain contributed by one rule - literal
nodes for the name segments, then field nodes for the category segments
below the leaf; the leaf of the name path carries the rule's search
predicate. -/
def nameChain (n : String) : List String → List String → String → BrowsePath
  | [], cats, srch => .mk n false srch [] [] (catChain cats)
  | m :: rest, cats, srch => .mk n false "" [] [] [nameChain m rest cats srch]

/-- Modelled from the spec: merge two name-sorted sibling forests.  Nodes
with equal names are reused (merged recursively); a node is a field node
only if both contributions are field contributions; a non-empty incoming
search predicate replaces the stored one. -/
def mergeForest : List BrowsePath → List BrowsePath → List BrowsePath
  | [], g => g
  | a :: as, [] => a :: as
  | .mk n f s eT eST cs :: as, .mk n' f' s' eT' eST' cs' :: bs =>
      if n < n' then
        .mk n f s eT eST cs :: mergeForest as (.mk n' f' s' eT' eST' cs' :: bs)
      else if n' < n then
        .mk n' f' s' eT' eST' cs' :: mergeForest (.mk n f s eT eST cs :: as) bs
      else
        .mk n (f && f') (if s' = "" then s else s') [] []
            (mergeForest cs cs') :: mergeForest as bs

/-- Modelled from the spec: insert one rule into the forest; a rule with an
empty name path is dropped silently. -/
def insertRule (f : List BrowsePath) (r : BrowseRule) : List BrowsePath :=
  match r.get_names with
  | [] => f
  | n :: rest => mergeForest f [nameChain n rest r.get_categories r.search]

/-- Modelled from the spec: build the forest by processing the rules in
input order. -/
def buildForest (rules : List BrowseRule) : List BrowsePath :=
  rules.foldl insertRule []

/-! ## Type inferencer (spec section 4.3) -/

mutual
/-- Modelled from the spec: annotate a node top-down - the effective values
are the node's explicit values (extracted from its own search predicate)
when non-empty, else the parent's effective values, copied by value. -/
def infer (pT : List MediaType) (pST : List MediaSubType) : BrowsePath → BrowsePath
  | .mk n f s _ _ cs =>
      let eT := extract_media_types s
      let eST := extract_media_sub_types s
      let effT := if eT = [] then pT else eT
      let effST := if eST = [] then pST else eST
      .mk n f s effT effST (inferF effT effST cs)

/-- Modelled from the spec: annotate each tree of a sibling list. -/
def inferF (pT : List MediaType) (pST : List MediaSubType) : List BrowsePath → List BrowsePath
  | [] => []
  | c :: cs => infer pT pST c :: inferF pT pST cs
end

/-- Modelled from the spec: build the forest from a rule list and run type
inference once, top-down, with empty effective values at the roots. -/
def convert_browse_rules (rules : List BrowseRule) : List BrowsePath :=
  inferF [] [] (buildForest rules)

/-! ## Flattened traversal (spec section 4.2, flat=true; the repository test
test_parse_browse_rules pins the flat output to the literal nodes only) -/

mutual
/-- Modelled from the spec and the repository test test_parse_browse_rules
(src/tests/test_hamcws.py lines 609-640, which lists the expected flat
output and omits every field node): the flat listing of a subtree is its
pre-order traversal pruned at field nodes, each entry pairing the computed
full path with the node. -/
def flattenNode (segs : List String) : BrowsePath → List (String × BrowsePath)
  | .mk n f s eT eST cs =>
      if f then []
      else (joinSegs (segs ++ [n]), .mk n f s eT eST cs) :: flattenF (segs ++ [n]) cs

/-- Modelled from the spec: the flat listing of a sibling list. -/
def flattenF (segs : List String) : List BrowsePath → List (String × BrowsePath)
  | [] => []
  | c :: cs => flattenNode segs c ++ flattenF segs cs
end

/-- Modelled from the spec: convert_browse_rules with flat=true - the flat
listing of the built and inferred forest. -/
def convert_browse_rules_flat (rules : List BrowseRule) : List (String × BrowsePath) :=
  flattenF [] (convert_browse_rules rules)

mutual
/-- The pre-order traversal of all nodes of a subtree, field nodes included,
each entry pairing the computed full path with the node.  This definition
follows the spec's words for the flat=true return value (section 4.2) and
exists to be compared with flattenNode. -/
def preorderAllNode (segs : List String) : BrowsePath → List (String × BrowsePath)
  | .mk n f s eT eST cs =>
      (joinSegs (segs ++ [n]), .mk n f s eT eST cs) :: preorderAllF (segs ++ [n]) cs

/-- The pre-order traversal of all nodes of a sibling list. -/
def preorderAllF (segs : List String) : List BrowsePath → List (String × BrowsePath)
  | [] => []
  | c :: cs => preorderAllNode segs c ++ preorderAllF segs cs
end

/-! ## Path matcher (spec section 4.4) -/

/-- Modelled from the spec: the first literal child whose name equals the
breadcrumb segment exactly (case-sensitive). -/
def findLiteral (nm : String) : List BrowsePath → Option BrowsePath
  | [] => none
  | c :: cs => if c.is_field = false ∧ c.name = nm then some c else findLiteral nm cs

/-- Modelled from the spec: the field children of a sibling list. -/
def fieldKids (cs : List BrowsePath) : List BrowsePath :=
  cs.filter (fun c => c.is_field)

/-- Modelled from the spec (section 4.4): walk the breadcrumb below a node -
literal match first, else the unique field child as a wildcard, else fail;
an exhausted breadcrumb returns the node reached. -/
def walkPath : BrowsePath → List String → Option BrowsePath
  | t, [] => some t
  | t, c :: rest =>
      match findLiteral c t.children with
      | some ch => walkPath ch rest
      | none =>
          match fieldKids t.children with
          | [ch] => walkPath ch rest
          | _ => none

/-- Modelled from the spec (section 4.4, search_for_path): resolve a
breadcrumb against the forest; at the top level only literal root names are
tried, and an empty breadcrumb returns none. -/
def search_for_path (forest : List BrowsePath) (crumbs : List String) : Option BrowsePath :=
  match crumbs with
  | [] => none
  | c :: rest =>
      match findLiteral c forest with
      | some r => walkPath r rest
      | none => none

/-! ## Shorthand grammar parser (spec section 4.1,
parse_browse_paths_from_text) -/

/-- Modelled from the spec: the literal name segments of a shorthand line -
the text before the first pipe, split on commas. -/
def lineNameSegs (line : String) : List String :=
  splitc ',' ((splitc '|' line).headD "")

/-- Modelled from the spec: the field category segments of a shorthand
line - the text after the first pipe, split on commas; empty without a
pipe. -/
def lineCatSegs (line : String) : List String :=
  match splitc '|' line with
  | _ :: p :: _ => splitc ',' p
  | _ => []

/-- Modelled from the spec: a line is malformed when it has no name before
any separator, i.e. its first literal name segment is empty. -/
def malformedLine (line : String) : Bool :=
  decide ((lineNameSegs line).headD "" = "")

/-- Modelled from the spec: process shorthand lines in order, merging each
line's literal chain and trailing field chain into the forest; fail fast
with a MalformedRuleError (carrying the offending line) at the first
malformed line, producing no partial result. -/
def parseLines : List String → List BrowsePath → Except String (List BrowsePath)
  | [], acc => .ok (inferF [] [] acc)
  | l :: rest, acc =>
      if malformedLine l then .error l
      else
        match lineNameSegs l with
        | [] => parseLines rest acc
        | n :: ns => parseLines rest (mergeForest acc [nameChain n ns (lineCatSegs l) ""])

/-- Modelled from the spec (section 4.1): parse the shorthand configuration
into a built and inferred forest, or fail with the first malformed line. -/
def parse_browse_paths_from_text (lines : List String) : Except String (List BrowsePath) :=
  parseLines lines []

/-! ## Structural shape of a forest

The shape of a node erases everything except its name, its field flag and
the shapes of its children: exactly the data that claim C4 calls the
structure of the tree (node names, child order, is_field flags). -/

/-- The structural skeleton of a browse node: name, field flag and
children. -/
inductive SPath where
  | mk (name : String) (is_field : Bool) (children : List SPath)

def SPath.name : SPath → String
  | .mk n _ _ => n

def SPath.is_field : SPath → Bool
  | .mk _ f _ => f

def SPath.children : SPath → List SPath
  | .mk _ _ cs => cs

mutual
/-- The shape of a browse node. -/
def shape : BrowsePath → SPath
  | .mk n f _ _ _ cs => .mk n f (shapeF cs)

/-- The shapes of a sibling list. -/
def shapeF : List BrowsePath → List SPath
  | [] => []
  | c :: cs => shape c :: shapeF cs
end

/-- Merging of shape forests, mirroring mergeForest. -/
def smerge : List SPath → List SPath → List SPath
  | [], g => g
  | a :: as, [] => a :: as
  | .mk n f cs :: as, .mk n' f' cs' :: bs =>
      if n < n' then .mk n f cs :: smerge as (.mk n' f' cs' :: bs)
      else if n' < n then .mk n' f' cs' :: smerge (.mk n f cs :: as) bs
      else .mk n (f && f') (smerge cs cs') :: smerge as bs

/-- The shape of a category chain. -/
def scatChain : List String → List SPath
  | [] => []
  | c :: rest => [.mk c true (scatChain rest)]

/-- The shape of a rule's chain. -/
def snameChain (n : String) : List String → List String → SPath
  | [], cats => .mk n false (scatChain cats)
  | m :: rest, cats => .mk n false [snameChain m rest cats]

/-- Insertion of a rule at the shape level. -/
def sInsert (sf : List SPath) (r : BrowseRule) : List SPath :=
  match r.get_names with
  | [] => sf
  | n :: rest => smerge sf [snameChain n rest r.get_categories]

/-! ## Basic simp lemmas -/

@[simp] theorem BrowsePath.name_mk (n f s eT eST cs) :
    (BrowsePath.mk n f s eT eST cs).name = n := rfl

@[simp] theorem BrowsePath.is_field_mk (n f s eT eST cs) :
    (BrowsePath.mk n f s eT eST cs).is_field = f := rfl

@[simp] theorem BrowsePath.search_mk (n f s eT eST cs) :
    (BrowsePath.mk n f s eT eST cs).search = s := rfl

@[simp] theorem BrowsePath.effective_media_types_mk (n f s eT eST cs) :
    (BrowsePath.mk n f s eT eST cs).effective_media_types = eT := rfl

@[simp] theorem BrowsePath.effective_media_sub_types_mk (n f s eT eST cs) :
    (BrowsePath.mk n f s eT eST cs).effective_media_sub_types = eST := rfl

@[simp] theorem BrowsePath.children_mk (n f s eT eST cs) :
    (BrowsePath.mk n f s eT eST cs).children = cs := rfl

@[simp] theorem sname_mk (n f cs) : (SPath.mk n f cs).name = n := rfl

@[simp] theorem sis_field_mk (n f cs) : (SPath.mk n f cs).is_field = f := rfl

@[simp] theorem schildren_mk (n f cs) : (SPath.mk n f cs).children = cs := rfl

/-- Structural induction principle for browse nodes, with the inductive
hypothesis available for every child. -/
def browseInd {P : BrowsePath → Prop}
    (h : ∀ n f s eT eST cs, (∀ c ∈ cs, P c) → P (.mk n f s eT eST cs)) :
    ∀ t, P t
  | .mk n f s eT eST cs => h n f s eT eST cs (fun c hm => browseInd h c)
termination_by t => sizeOf t
decreasing_by
  have hlt := List.sizeOf_lt_of_mem hm
  simp only [BrowsePath.mk.sizeOf_spec]
  omega

/-! ## smerge rewrite lemmas and algebra -/

theorem smerge_nil_left (g : List SPath) : smerge [] g = g := by
  cases g <;> simp [smerge]

theorem smerge_nil_right (f : List SPath) : smerge f [] = f := by
  cases f with
  | nil => simp [smerge]
  | cons a as => cases a; simp [smerge]

theorem smerge_cons_lt {n f cs n' f' cs'} (h : n < n') (as bs : List SPath) :
    smerge (SPath.mk n f cs :: as) (SPath.mk n' f' cs' :: bs) =
      SPath.mk n f cs :: smerge as (SPath.mk n' f' cs' :: bs) := by
  simp [smerge, h]

theorem smerge_cons_gt {n f cs n' f' cs'} (h : n' < n) (as bs : List SPath) :
    smerge (SPath.mk n f cs :: as) (SPath.mk n' f' cs' :: bs) =
      SPath.mk n' f' cs' :: smerge (SPath.mk n f cs :: as) bs := by
  have h1 : ¬ n < n' := lt_asymm h
  simp [smerge, h, h1]

theorem smerge_cons_eq {n f cs n' f' cs'} (h : n = n') (as bs : List SPath) :
    smerge (SPath.mk n f cs :: as) (SPath.mk n' f' cs' :: bs) =
      SPath.mk n (f && f') (smerge cs cs') :: smerge as bs := by
  subst h
  simp [smerge]

theorem smerge_comm : ∀ f g, smerge f g = smerge g f
  | [], g => by rw [smerge_nil_left, smerge_nil_right]
  | a :: as, [] => by rw [smerge_nil_left, smerge_nil_right]
  | .mk n f cs :: as, .mk n' f' cs' :: bs => by
      rcases lt_trichotomy n n' with h | h | h
      · rw [smerge_cons_lt h, smerge_cons_gt h, smerge_comm as (SPath.mk n' f' cs' :: bs)]
      · subst h
        rw [smerge_cons_eq rfl, smerge_cons_eq rfl, smerge_comm as bs,
          smerge_comm cs cs', Bool.and_comm]
      · rw [smerge_cons_gt h, smerge_cons_lt h, smerge_comm (SPath.mk n f cs :: as) bs]
termination_by f g => sizeOf f + sizeOf g
decreasing_by all_goals (simp only [List.cons.sizeOf_spec, SPath.mk.sizeOf_spec]; omega)



theorem smerge_assoc : ∀ f g h, smerge (smerge f g) h = smerge f (smerge g h)
  | [], g, h => by rw [smerge_nil_left, smerge_nil_left]
  | a :: as, [], h => by rw [smerge_nil_right, smerge_nil_left]
  | a :: as, b :: bs, [] => by rw [smerge_nil_right, smerge_nil_right]
  | .mk n1 f1 k1 :: as, .mk n2 f2 k2 :: bs, .mk n3 f3 k3 :: cs => by
      rcases lt_trichotomy n1 n2 with h12 | h12 | h12
      · rcases lt_trichotomy n2 n3 with h23 | h23 | h23
        · have h13 : n1 < n3 := lt_trans h12 h23
          simp only [smerge_cons_lt h12, smerge_cons_lt h23, smerge_cons_lt h13,
            smerge_assoc as (SPath.mk n2 f2 k2 :: bs) (SPath.mk n3 f3 k3 :: cs)]
        · subst h23
          simp only [smerge_cons_lt h12, smerge_cons_eq rfl,
            smerge_assoc as (SPath.mk n2 f2 k2 :: bs) (SPath.mk n2 f3 k3 :: cs)]
        · rcases lt_trichotomy n1 n3 with h13 | h13 | h13
          · simp only [smerge_cons_lt h12, smerge_cons_gt h23, smerge_cons_lt h13,
              smerge_assoc as (SPath.mk n2 f2 k2 :: bs) (SPath.mk n3 f3 k3 :: cs)]
          · subst h13
            simp only [smerge_cons_lt h12, smerge_cons_gt h23, smerge_cons_eq rfl,
              smerge_assoc as (SPath.mk n2 f2 k2 :: bs) cs]
          · simp only [smerge_cons_lt h12, smerge_cons_gt h23, smerge_cons_gt h13]
            rw [← smerge_cons_lt h12, smerge_assoc (SPath.mk n1 f1 k1 :: as) (SPath.mk n2 f2 k2 :: bs) cs]
      · subst h12
        rcases lt_trichotomy n1 n3 with h13 | h13 | h13
        · simp only [smerge_cons_eq rfl, smerge_cons_lt h13,
            smerge_assoc as bs (SPath.mk n3 f3 k3 :: cs)]
        · subst h13
          simp only [smerge_cons_eq rfl, smerge_assoc as bs cs,
            smerge_assoc k1 k2 k3, Bool.and_assoc]
        · simp only [smerge_cons_eq rfl, smerge_cons_gt h13]
          rw [← smerge_cons_eq rfl, smerge_assoc (SPath.mk n1 f1 k1 :: as) (SPath.mk n1 f2 k2 :: bs) cs]
      · rcases lt_trichotomy n2 n3 with h23 | h23 | h23
        · rcases lt_trichotomy n1 n3 with h13 | h13 | h13
          · simp only [smerge_cons_gt h12, smerge_cons_lt h23, smerge_cons_lt h13,
              smerge_assoc (SPath.mk n1 f1 k1 :: as) bs (SPath.mk n3 f3 k3 :: cs)]
          · subst h13
            simp only [smerge_cons_gt h12, smerge_cons_lt h23, smerge_cons_eq rfl,
              smerge_assoc (SPath.mk n1 f1 k1 :: as) bs (SPath.mk n1 f3 k3 :: cs)]
          · simp only [smerge_cons_gt h12, smerge_cons_lt h23, smerge_cons_gt h13,
              smerge_assoc (SPath.mk n1 f1 k1 :: as) bs (SPath.mk n3 f3 k3 :: cs)]
        · subst h23
          simp only [smerge_cons_gt h12, smerge_cons_eq rfl,
            smerge_assoc (SPath.mk n1 f1 k1 :: as) bs cs]
        · have h13 : n3 < n1 := lt_trans h23 h12
          simp only [smerge_cons_gt h12, smerge_cons_gt h23, smerge_cons_gt h13]
          rw [← smerge_cons_gt h12, smerge_assoc (SPath.mk n1 f1 k1 :: as) (SPath.mk n2 f2 k2 :: bs) cs]
termination_by f g h => sizeOf f + sizeOf g + sizeOf h
decreasing_by all_goals (subst_vars; simp only [List.cons.sizeOf_spec, SPath.mk.sizeOf_spec]; omega)

/-! ## Relating the builder to shape-level operations -/

theorem mergeForest_nil_left (g : List BrowsePath) : mergeForest [] g = g := by
  cases g <;> simp [mergeForest]

theorem mergeForest_nil_right (f : List BrowsePath) : mergeForest f [] = f := by
  cases f with
  | nil => simp [mergeForest]
  | cons a as => cases a; simp [mergeForest]

theorem mergeForest_cons_lt {n f s eT eST cs n' f' s' eT' eST' cs'} (h : n < n')
    (as bs : List BrowsePath) :
    mergeForest (BrowsePath.mk n f s eT eST cs :: as)
        (BrowsePath.mk n' f' s' eT' eST' cs' :: bs) =
      BrowsePath.mk n f s eT eST cs ::
        mergeForest as (BrowsePath.mk n' f' s' eT' eST' cs' :: bs) := by
  simp [mergeForest, h]

theorem mergeForest_cons_gt {n f s eT eST cs n' f' s' eT' eST' cs'} (h : n' < n)
    (as bs : List BrowsePath) :
    mergeForest (BrowsePath.mk n f s eT eST cs :: as)
        (BrowsePath.mk n' f' s' eT' eST' cs' :: bs) =
      BrowsePath.mk n' f' s' eT' eST' cs' ::
        mergeForest (BrowsePath.mk n f s eT eST cs :: as) bs := by
  have h1 : ¬ n < n' := lt_asymm h
  simp [mergeForest, h, h1]

theorem mergeForest_cons_eq {n f s eT eST cs n' f' s' eT' eST' cs'} (h : n = n')
    (as bs : List BrowsePath) :
    mergeForest (BrowsePath.mk n f s eT eST cs :: as)
        (BrowsePath.mk n' f' s' eT' eST' cs' :: bs) =
      BrowsePath.mk n (f && f') (if s' = "" then s else s') [] []
          (mergeForest cs cs') :: mergeForest as bs := by
  subst h
  simp [mergeForest]

@[simp] theorem shapeF_nil : shapeF [] = [] := by simp [shapeF]

@[simp] theorem shapeF_cons (c : BrowsePath) (cs : List BrowsePath) :
    shapeF (c :: cs) = shape c :: shapeF cs := by simp [shapeF]

@[simp] theorem shape_mk (n f s eT eST cs) :
    shape (BrowsePath.mk n f s eT eST cs) = SPath.mk n f (shapeF cs) := by
  simp [shape]

theorem shapeF_merge : ∀ f g, shapeF (mergeForest f g) = smerge (shapeF f) (shapeF g) := by
  intro f g
  induction f, g using mergeForest.induct with
  | case1 g => rw [mergeForest_nil_left, shapeF_nil, smerge_nil_left]
  | case2 a as => rw [mergeForest_nil_right, shapeF_nil, smerge_nil_right]
  | case3 n f s eT eST cs as n' f' s' eT' eST' cs' bs hlt ih =>
      simp only [mergeForest_cons_lt hlt, shapeF_cons, shape_mk, smerge_cons_lt hlt, ih]
  | case4 n f s eT eST cs as n' f' s' eT' eST' cs' bs hnlt hgt ih =>
      simp only [mergeForest_cons_gt hgt, shapeF_cons, shape_mk, smerge_cons_gt hgt, ih]
  | case5 n f s eT eST cs as n' f' s' eT' eST' cs' bs hnlt hngt ih1 ih2 =>
      have heq : n = n' := le_antisymm (not_lt.mp hngt) (not_lt.mp hnlt)
      simp only [mergeForest_cons_eq heq, shapeF_cons, shape_mk, smerge_cons_eq heq, ih1, ih2]

theorem shapeF_catChain : ∀ cats, shapeF (catChain cats) = scatChain cats
  | [] => by simp [catChain, scatChain]
  | c :: rest => by
      simp only [catChain, scatChain, shapeF_cons, shapeF_nil, shape_mk,
        shapeF_catChain rest]

theorem shape_nameChain (n : String) :
    ∀ rest cats srch, shape (nameChain n rest cats srch) = snameChain n rest cats
  | [], cats, srch => by
      simp only [nameChain, snameChain, shape_mk, shapeF_catChain]
  | m :: rest, cats, srch => by
      simp only [nameChain, snameChain, shape_mk, shapeF_cons, shapeF_nil,
        shape_nameChain m rest cats srch]

theorem shapeF_insertRule (f : List BrowsePath) (r : BrowseRule) :
    shapeF (insertRule f r) = sInsert (shapeF f) r := by
  unfold insertRule sInsert
  cases r.get_names with
  | nil => rfl
  | cons n rest =>
      simp only [shapeF_merge, shapeF_cons, shapeF_nil, shape_nameChain]

theorem shapeF_buildForest (rules : List BrowseRule) :
    shapeF (buildForest rules) = rules.foldl sInsert [] := by
  unfold buildForest
  suffices h : ∀ acc, shapeF (rules.foldl insertRule acc) = rules.foldl sInsert (shapeF acc) by
    simpa using h []
  induction rules with
  | nil => intro acc; simp
  | cons r rs ih =>
      intro acc
      simp only [List.foldl_cons, ih (insertRule acc r), shapeF_insertRule]

/-- Inserting two rules at the shape level commutes: the basis of the
permutation invariance of the builder. -/
theorem sInsert_comm (sf : List SPath) (r1 r2 : BrowseRule) :
    sInsert (sInsert sf r1) r2 = sInsert (sInsert sf r2) r1 := by
  unfold sInsert
  cases h1 : r1.get_names with
  | nil => rfl
  | cons n1 rest1 =>
      cases h2 : r2.get_names with
      | nil => rfl
      | cons n2 rest2 =>
          dsimp only
          rw [smerge_assoc, smerge_assoc,
            smerge_comm [snameChain n1 rest1 r1.get_categories]
              [snameChain n2 rest2 r2.get_categories]]

/-! ## Structure preservation of the type inferencer -/

@[simp] theorem inferF_nil (pT pST) : inferF pT pST [] = [] := by simp [inferF]

@[simp] theorem inferF_cons (pT pST c cs) :
    inferF pT pST (c :: cs) = infer pT pST c :: inferF pT pST cs := by
  simp [inferF]

theorem shapeF_inferF_aux :
    ∀ cs : List BrowsePath, (∀ c ∈ cs, ∀ pT pST, shape (infer pT pST c) = shape c) →
      ∀ pT pST, shapeF (inferF pT pST cs) = shapeF cs
  | [], _, pT, pST => by simp
  | c :: cs, h, pT, pST => by
      simp only [inferF_cons, shapeF_cons]
      rw [h c (by simp), shapeF_inferF_aux cs (fun d hd => h d (by simp [hd]))]

theorem shape_infer : ∀ t : BrowsePath, ∀ pT pST, shape (infer pT pST t) = shape t := by
  intro t
  induction t using browseInd with
  | _ n f s eT eST cs ih =>
      intro pT pST
      simp only [infer, shape_mk]
      rw [shapeF_inferF_aux cs ih]

theorem shapeF_inferF (pT pST) (cs : List BrowsePath) :
    shapeF (inferF pT pST cs) = shapeF cs :=
  shapeF_inferF_aux cs (fun c _ => shape_infer c) pT pST

theorem shapeF_convert (rules : List BrowseRule) :
    shapeF (convert_browse_rules rules) = rules.foldl sInsert [] := by
  unfold convert_browse_rules
  rw [shapeF_inferF, shapeF_buildForest]

/-- C4: for every rule list and every permutation of it, building the forest
yields structurally identical trees - the same node names, the same child
order and the same is_field flags at every position (the shape of the
forest); the same holds after type inference. -/
theorem c4_build_permutation_invariant (rules₁ rules₂ : List BrowseRule)
    (hperm : rules₁.Perm rules₂) :
    shapeF (buildForest rules₁) = shapeF (buildForest rules₂) ∧
    shapeF (convert_browse_rules rules₁) = shapeF (convert_browse_rules rules₂) := by
  have h : rules₁.foldl sInsert [] = rules₂.foldl sInsert [] :=
    hperm.foldl_eq' (fun x _ y _ z => sInsert_comm z x y) []
  constructor
  · rw [shapeF_buildForest, shapeF_buildForest, h]
  · rw [shapeF_convert, shapeF_convert, h]

/-- Witness for C4 at a concrete permuted pair of rule lists. -/
theorem c4_build_permutation_invariant_witness :
    shapeF (buildForest
        [BrowseRule.mk "Video" "" "", BrowseRule.mk "Audio" "Album" "x"]) =
      shapeF (buildForest
        [BrowseRule.mk "Audio" "Album" "x", BrowseRule.mk "Video" "" ""]) :=
  (c4_build_permutation_invariant _ _ (by decide)).1

/-! ## Sibling ordering invariant (claim C6) -/

/-- All sibling lists below the node are strictly ascending by name. -/
inductive SortedNode : BrowsePath → Prop where
  | intro (n f s eT eST cs) :
      List.Pairwise (fun a b : BrowsePath => a.name < b.name) cs →
      (∀ c ∈ cs, SortedNode c) →
      SortedNode (.mk n f s eT eST cs)

/-- The roots are strictly ascending by name and every node's children are
strictly ascending by name. -/
def SortedForest (f : List BrowsePath) : Prop :=
  List.Pairwise (fun a b : BrowsePath => a.name < b.name) f ∧ ∀ t ∈ f, SortedNode t

theorem SortedNode.children_pairwise {t : BrowsePath} (h : SortedNode t) :
    List.Pairwise (fun a b : BrowsePath => a.name < b.name) t.children := by
  cases h with
  | intro n f s eT eST cs hp hs => simpa only [BrowsePath.children_mk] using hp

theorem SortedNode.children_sorted {t : BrowsePath} (h : SortedNode t) :
    ∀ c ∈ t.children, SortedNode c := by
  cases h with
  | intro n f s eT eST cs hp hs => simpa only [BrowsePath.children_mk] using hs

theorem mergeForest_name_bound (x : String) :
    ∀ f g, (∀ a ∈ f, x < a.name) → (∀ b ∈ g, x < b.name) →
      ∀ c ∈ mergeForest f g, x < c.name := by
  intro f g
  induction f, g using mergeForest.induct with
  | case1 g =>
      intro _ hg c hc
      rw [mergeForest_nil_left] at hc
      exact hg c hc
  | case2 a as =>
      intro hf _ c hc
      rw [mergeForest_nil_right] at hc
      exact hf c hc
  | case3 n f s eT eST cs as n' f' s' eT' eST' cs' bs hlt ih =>
      intro hf hg c hc
      rw [mergeForest_cons_lt hlt] at hc
      rcases List.mem_cons.mp hc with rfl | hc
      · exact hf _ (by simp)
      · exact ih (fun a ha => hf a (by simp [ha])) hg c hc
  | case4 n f s eT eST cs as n' f' s' eT' eST' cs' bs hnlt hgt ih =>
      intro hf hg c hc
      rw [mergeForest_cons_gt hgt] at hc
      rcases List.mem_cons.mp hc with rfl | hc
      · exact hg _ (by simp)
      · exact ih hf (fun b hb => hg b (by simp [hb])) c hc
  | case5 n f s eT eST cs as n' f' s' eT' eST' cs' bs hnlt hngt ih1 ih2 =>
      intro hf hg c hc
      have heq : n = n' := le_antisymm (not_lt.mp hngt) (not_lt.mp hnlt)
      rw [mergeForest_cons_eq heq] at hc
      rcases List.mem_cons.mp hc with rfl | hc
      · simpa using hf (BrowsePath.mk n f s eT eST cs) (by simp)
      · exact ih2 (fun a ha => hf a (by simp [ha])) (fun b hb => hg b (by simp [hb])) c hc

theorem mergeForest_sorted :
    ∀ f g, SortedForest f → SortedForest g → SortedForest (mergeForest f g) := by
  intro f g
  induction f, g using mergeForest.induct with
  | case1 g =>
      intro _ hg
      rw [mergeForest_nil_left]; exact hg
  | case2 a as =>
      intro hf _
      rw [mergeForest_nil_right]; exact hf
  | case3 n f s eT eST cs as n' f' s' eT' eST' cs' bs hlt ih =>
      intro hf hg
      obtain ⟨hfp, hfn⟩ := hf
      obtain ⟨hfb, hft⟩ := List.pairwise_cons.mp hfp
      rw [mergeForest_cons_lt hlt]
      refine ⟨List.pairwise_cons.mpr ⟨?_, ?_⟩, ?_⟩
      · refine mergeForest_name_bound _ _ _ (fun a ha => hfb a ha) ?_
        intro b hb
        rcases List.mem_cons.mp hb with rfl | hb
        · simpa using hlt
        · exact lt_trans hlt (by simpa using (List.pairwise_cons.mp hg.1).1 b hb)
      · exact (ih ⟨hft, fun t ht => hfn t (by simp [ht])⟩ hg).1
      · intro t ht
        rcases List.mem_cons.mp ht with rfl | ht
        · exact hfn _ (by simp)
        · exact (ih ⟨hft, fun u hu => hfn u (by simp [hu])⟩ hg).2 t ht
  | case4 n f s eT eST cs as n' f' s' eT' eST' cs' bs hnlt hgt ih =>
      intro hf hg
      obtain ⟨hgp, hgn⟩ := hg
      obtain ⟨hgb, hgt'⟩ := List.pairwise_cons.mp hgp
      rw [mergeForest_cons_gt hgt]
      refine ⟨List.pairwise_cons.mpr ⟨?_, ?_⟩, ?_⟩
      · refine mergeForest_name_bound _ _ _ ?_ (fun b hb => hgb b hb)
        intro a ha
        rcases List.mem_cons.mp ha with rfl | ha
        · simpa using hgt
        · exact lt_trans hgt (by simpa using (List.pairwise_cons.mp hf.1).1 a ha)
      · exact (ih hf ⟨hgt', fun t ht => hgn t (by simp [ht])⟩).1
      · intro t ht
        rcases List.mem_cons.mp ht with rfl | ht
        · exact hgn _ (by simp)
        · exact (ih hf ⟨hgt', fun u hu => hgn u (by simp [hu])⟩).2 t ht
  | case5 n f s eT eST cs as n' f' s' eT' eST' cs' bs hnlt hngt ih1 ih2 =>
      intro hf hg
      have heq : n = n' := le_antisymm (not_lt.mp hngt) (not_lt.mp hnlt)
      obtain ⟨hfp, hfn⟩ := hf
      obtain ⟨hgp, hgn⟩ := hg
      obtain ⟨hfb, hft⟩ := List.pairwise_cons.mp hfp
      obtain ⟨hgb, hgt'⟩ := List.pairwise_cons.mp hgp
      have hsn : SortedNode (BrowsePath.mk n f s eT eST cs) := hfn _ (by simp)
      have hsn' : SortedNode (BrowsePath.mk n' f' s' eT' eST' cs') := hgn _ (by simp)
      rw [mergeForest_cons_eq heq]
      have hchild : SortedForest (mergeForest cs cs') :=
        ih1 ⟨hsn.children_pairwise, hsn.children_sorted⟩
          ⟨hsn'.children_pairwise, hsn'.children_sorted⟩
      refine ⟨List.pairwise_cons.mpr ⟨?_, ?_⟩, ?_⟩
      · refine mergeForest_name_bound _ _ _ (fun a ha => hfb a ha) ?_
        intro b hb
        rw [heq]
        exact hgb b hb
      · exact (ih2 ⟨hft, fun t ht => hfn t (by simp [ht])⟩
          ⟨hgt', fun t ht => hgn t (by simp [ht])⟩).1
      · intro t ht
        rcases List.mem_cons.mp ht with rfl | ht
        · exact SortedNode.intro _ _ _ _ _ _ hchild.1 hchild.2
        · exact (ih2 ⟨hft, fun u hu => hfn u (by simp [hu])⟩
            ⟨hgt', fun u hu => hgn u (by simp [hu])⟩).2 t ht

theorem catChain_sortedNode : ∀ cats, ∀ t ∈ catChain cats, SortedNode t
  | [], t, ht => by simp [catChain] at ht
  | c :: rest, t, ht => by
      simp only [catChain, List.mem_singleton] at ht
      subst ht
      exact SortedNode.intro _ _ _ _ _ _
        (match rest with
          | [] => by simp [catChain]
          | d :: r => by simp [catChain])
        (catChain_sortedNode rest)

theorem nameChain_sortedNode (n : String) :
    ∀ rest cats srch, SortedNode (nameChain n rest cats srch)
  | [], cats, srch => by
      simp only [nameChain]
      exact SortedNode.intro _ _ _ _ _ _
        (match cats with
          | [] => by simp [catChain]
          | c :: r => by simp [catChain])
        (catChain_sortedNode cats)
  | m :: rest, cats, srch => by
      simp only [nameChain]
      exact SortedNode.intro _ _ _ _ _ _ (by simp)
        (by
          intro c hc
          simp only [List.mem_singleton] at hc
          subst hc
          exact nameChain_sortedNode m rest cats srch)

theorem insertRule_sorted (f : List BrowsePath) (r : BrowseRule)
    (hf : SortedForest f) : SortedForest (insertRule f r) := by
  unfold insertRule
  cases r.get_names with
  | nil => exact hf
  | cons n rest =>
      refine mergeForest_sorted _ _ hf ⟨by simp, ?_⟩
      intro t ht
      simp only [List.mem_singleton] at ht
      subst ht
      exact nameChain_sortedNode n rest r.get_categories r.search

theorem buildForest_sorted (rules : List BrowseRule) : SortedForest (buildForest rules) := by
  unfold buildForest
  suffices h : ∀ acc, SortedForest acc → SortedForest (rules.foldl insertRule acc) from
    h [] ⟨by simp, by simp⟩
  induction rules with
  | nil => intro acc h; simpa
  | cons r rs ih =>
      intro acc h
      exact ih (insertRule acc r) (insertRule_sorted acc r h)

theorem inferF_eq_map (pT pST) : ∀ cs, inferF pT pST cs = cs.map (infer pT pST)
  | [] => by simp
  | c :: cs => by simp [inferF_eq_map pT pST cs]

theorem infer_name (pT pST) (t : BrowsePath) : (infer pT pST t).name = t.name := by
  cases t; simp [infer]

theorem infer_is_field (pT pST) (t : BrowsePath) : (infer pT pST t).is_field = t.is_field := by
  cases t; simp [infer]

theorem infer_search (pT pST) (t : BrowsePath) : (infer pT pST t).search = t.search := by
  cases t; simp [infer]

theorem infer_sortedNode :
    ∀ t : BrowsePath, SortedNode t → ∀ pT pST, SortedNode (infer pT pST t) := by
  intro t
  induction t using browseInd with
  | _ n f s eT eST cs ih =>
      intro hs pT pST
      simp only [infer]
      refine SortedNode.intro _ _ _ _ _ _ ?_ ?_
      · rw [inferF_eq_map]
        refine (List.pairwise_map).mpr ?_
        refine hs.children_pairwise.imp ?_
        intro a b hab
        simpa only [infer_name] using hab
      · rw [inferF_eq_map]
        intro c hc
        obtain ⟨d, hd, rfl⟩ := List.mem_map.mp hc
        exact ih d hd (hs.children_sorted d hd) _ _

theorem inferF_sortedForest (pT pST) (f : List BrowsePath) (hf : SortedForest f) :
    SortedForest (inferF pT pST f) := by
  rw [inferF_eq_map]
  constructor
  · refine (List.pairwise_map).mpr ?_
    refine hf.1.imp ?_
    intro a b hab
    simpa only [infer_name] using hab
  · intro t ht
    obtain ⟨d, hd, rfl⟩ := List.mem_map.mp ht
    exact infer_sortedNode d (hf.2 d hd) _ _

theorem convert_browse_rules_sorted (rules : List BrowseRule) :
    SortedForest (convert_browse_rules rules) :=
  inferF_sortedForest _ _ _ (buildForest_sorted rules)

theorem parseLines_sorted :
    ∀ lines acc forest, SortedForest acc → parseLines lines acc = .ok forest →
      SortedForest forest
  | [], acc, forest, hacc, h => by
      simp only [parseLines, Except.ok.injEq] at h
      subst h
      exact inferF_sortedForest _ _ _ hacc
  | l :: rest, acc, forest, hacc, h => by
      simp only [parseLines] at h
      split at h
      · exact absurd h (by simp)
      · split at h
        · exact parseLines_sorted rest acc forest hacc h
        · refine parseLines_sorted rest _ forest ?_ h
          refine mergeForest_sorted _ _ hacc ⟨by simp, ?_⟩
          intro t ht
          simp only [List.mem_singleton] at ht
          subst ht
          exact nameChain_sortedNode _ _ _ _

/-- C6: for every node of every built forest (built from server rules or
from shorthand text), the children collection is strictly ascending by name
under the case-sensitive ordinal order (so no two siblings share a name);
the root list is sorted the same way. -/
theorem c6_sibling_order :
    (∀ rules, SortedForest (convert_browse_rules rules)) ∧
    (∀ lines forest, parse_browse_paths_from_text lines = .ok forest →
      SortedForest forest) := by
  constructor
  · exact convert_browse_rules_sorted
  · intro lines forest h
    exact parseLines_sorted lines [] forest ⟨by simp, by simp⟩ h

/-! ## Field nodes are downward closed (a builder invariant used to relate
the flat listing with the full pre-order traversal) -/

/-- Below a field node every node is a field node. -/
inductive FieldClosed : BrowsePath → Prop where
  | intro (n f s eT eST cs) :
      (f = true → ∀ c ∈ cs, c.is_field = true) →
      (∀ c ∈ cs, FieldClosed c) →
      FieldClosed (.mk n f s eT eST cs)

theorem FieldClosed.flag {t : BrowsePath} (h : FieldClosed t) :
    t.is_field = true → ∀ c ∈ t.children, c.is_field = true := by
  cases h with
  | intro n f s eT eST cs hflag hcs =>
      simpa only [BrowsePath.is_field_mk, BrowsePath.children_mk] using hflag

theorem FieldClosed.childrenClosed {t : BrowsePath} (h : FieldClosed t) :
    ∀ c ∈ t.children, FieldClosed c := by
  cases h with
  | intro n f s eT eST cs hflag hcs =>
      simpa only [BrowsePath.children_mk] using hcs

theorem mergeForest_all_field :
    ∀ f g, (∀ a ∈ f, a.is_field = true) → (∀ b ∈ g, b.is_field = true) →
      ∀ c ∈ mergeForest f g, c.is_field = true := by
  intro f g
  induction f, g using mergeForest.induct with
  | case1 g =>
      intro _ hg c hc
      rw [mergeForest_nil_left] at hc
      exact hg c hc
  | case2 a as =>
      intro hf _ c hc
      rw [mergeForest_nil_right] at hc
      exact hf c hc
  | case3 n f s eT eST cs as n' f' s' eT' eST' cs' bs hlt ih =>
      intro hf hg c hc
      rw [mergeForest_cons_lt hlt] at hc
      rcases List.mem_cons.mp hc with rfl | hc
      · exact hf _ (by simp)
      · exact ih (fun a ha => hf a (by simp [ha])) hg c hc
  | case4 n f s eT eST cs as n' f' s' eT' eST' cs' bs hnlt hgt ih =>
      intro hf hg c hc
      rw [mergeForest_cons_gt hgt] at hc
      rcases List.mem_cons.mp hc with rfl | hc
      · exact hg _ (by simp)
      · exact ih hf (fun b hb => hg b (by simp [hb])) c hc
  | case5 n f s eT eST cs as n' f' s' eT' eST' cs' bs hnlt hngt ih1 ih2 =>
      intro hf hg c hc
      have heq : n = n' := le_antisymm (not_lt.mp hngt) (not_lt.mp hnlt)
      rw [mergeForest_cons_eq heq] at hc
      rcases List.mem_cons.mp hc with rfl | hc
      · have h1 := hf (BrowsePath.mk n f s eT eST cs) (by simp)
        have h2 := hg (BrowsePath.mk n' f' s' eT' eST' cs') (by simp)
        simp only [BrowsePath.is_field_mk] at h1 h2 ⊢
        simp [h1, h2]
      · exact ih2 (fun a ha => hf a (by simp [ha])) (fun b hb => hg b (by simp [hb])) c hc

theorem mergeForest_fieldClosed :
    ∀ f g, (∀ a ∈ f, FieldClosed a) → (∀ b ∈ g, FieldClosed b) →
      ∀ c ∈ mergeForest f g, FieldClosed c := by
  intro f g
  induction f, g using mergeForest.induct with
  | case1 g =>
      intro _ hg c hc
      rw [mergeForest_nil_left] at hc
      exact hg c hc
  | case2 a as =>
      intro hf _ c hc
      rw [mergeForest_nil_right] at hc
      exact hf c hc
  | case3 n f s eT eST cs as n' f' s' eT' eST' cs' bs hlt ih =>
      intro hf hg c hc
      rw [mergeForest_cons_lt hlt] at hc
      rcases List.mem_cons.mp hc with rfl | hc
      · exact hf _ (by simp)
      · exact ih (fun a ha => hf a (by simp [ha])) hg c hc
  | case4 n f s eT eST cs as n' f' s' eT' eST' cs' bs hnlt hgt ih =>
      intro hf hg c hc
      rw [mergeForest_cons_gt hgt] at hc
      rcases List.mem_cons.mp hc with rfl | hc
      · exact hg _ (by simp)
      · exact ih hf (fun b hb => hg b (by simp [hb])) c hc
  | case5 n f s eT eST cs as n' f' s' eT' eST' cs' bs hnlt hngt ih1 ih2 =>
      intro hf hg c hc
      have heq : n = n' := le_antisymm (not_lt.mp hngt) (not_lt.mp hnlt)
      rw [mergeForest_cons_eq heq] at hc
      have hc1 := hf (BrowsePath.mk n f s eT eST cs) (by simp)
      have hc2 := hg (BrowsePath.mk n' f' s' eT' eST' cs') (by simp)
      rcases List.mem_cons.mp hc with rfl | hc
      · refine FieldClosed.intro _ _ _ _ _ _ ?_ ?_
        · intro hff c hcm
          have hf1 : f = true := by
            cases f <;> simp_all
          have hf2 : f' = true := by
            cases f' <;> simp_all
          exact mergeForest_all_field cs cs'
            (by simpa using hc1.flag (by simp [hf1]))
            (by simpa using hc2.flag (by simp [hf2])) c hcm
        · exact fun c hcm => ih1
            (by simpa using hc1.childrenClosed)
            (by simpa using hc2.childrenClosed) c hcm
      · exact ih2 (fun a ha => hf a (by simp [ha])) (fun b hb => hg b (by simp [hb])) c hc

theorem catChain_field : ∀ cats, ∀ t ∈ catChain cats, t.is_field = true
  | [], t, ht => by simp [catChain] at ht
  | c :: rest, t, ht => by
      simp only [catChain, List.mem_singleton] at ht
      subst ht
      simp

theorem catChain_fieldClosed : ∀ cats, ∀ t ∈ catChain cats, FieldClosed t
  | [], t, ht => by simp [catChain] at ht
  | c :: rest, t, ht => by
      simp only [catChain, List.mem_singleton] at ht
      subst ht
      exact FieldClosed.intro _ _ _ _ _ _ (fun _ => catChain_field rest)
        (catChain_fieldClosed rest)

theorem nameChain_fieldClosed (n : String) :
    ∀ rest cats srch, FieldClosed (nameChain n rest cats srch)
  | [], cats, srch =>
      FieldClosed.intro _ _ _ _ _ _ (by simp) (catChain_fieldClosed cats)
  | m :: rest, cats, srch =>
      FieldClosed.intro _ _ _ _ _ _ (by simp)
        (by
          intro c hc
          simp only [List.mem_singleton] at hc
          subst hc
          exact nameChain_fieldClosed m rest cats srch)

theorem buildForest_fieldClosed (rules : List BrowseRule) :
    ∀ t ∈ buildForest rules, FieldClosed t := by
  unfold buildForest
  suffices h : ∀ acc, (∀ t ∈ acc, FieldClosed t) →
      ∀ t ∈ rules.foldl insertRule acc, FieldClosed t from
    h [] (by simp)
  induction rules with
  | nil => intro acc h; simpa
  | cons r rs ih =>
      intro acc h
      refine ih (insertRule acc r) ?_
      unfold insertRule
      cases r.get_names with
      | nil => exact h
      | cons n rest =>
          refine mergeForest_fieldClosed _ _ h ?_
          intro t ht
          simp only [List.mem_singleton] at ht
          subst ht
          exact nameChain_fieldClosed n rest r.get_categories r.search

theorem infer_fieldClosed :
    ∀ t : BrowsePath, FieldClosed t → ∀ pT pST, FieldClosed (infer pT pST t) := by
  intro t
  induction t using browseInd with
  | _ n f s eT eST cs ih =>
      intro hfc pT pST
      simp only [infer]
      refine FieldClosed.intro _ _ _ _ _ _ ?_ ?_
      · intro hf c hc
        rw [inferF_eq_map] at hc
        obtain ⟨d, hd, rfl⟩ := List.mem_map.mp hc
        rw [infer_is_field]
        exact hfc.flag (by simpa using hf) d (by simpa using hd)
      · intro c hc
        rw [inferF_eq_map] at hc
        obtain ⟨d, hd, rfl⟩ := List.mem_map.mp hc
        exact ih d hd (hfc.childrenClosed d (by simpa using hd)) _ _

theorem convert_browse_rules_fieldClosed (rules : List BrowseRule) :
    ∀ t ∈ convert_browse_rules rules, FieldClosed t := by
  unfold convert_browse_rules
  intro t ht
  rw [inferF_eq_map] at ht
  obtain ⟨d, hd, rfl⟩ := List.mem_map.mp ht
  exact infer_fieldClosed d (buildForest_fieldClosed rules d hd) _ _

/-! ## The flat listing is the literal-node pre-order traversal (claim C2) -/

@[simp] theorem flattenF_nil (segs) : flattenF segs [] = [] := by simp [flattenF]

@[simp] theorem flattenF_cons (segs c cs) :
    flattenF segs (c :: cs) = flattenNode segs c ++ flattenF segs cs := by
  simp [flattenF]

@[simp] theorem preorderAllF_nil (segs) : preorderAllF segs [] = [] := by
  simp [preorderAllF]

@[simp] theorem preorderAllF_cons (segs c cs) :
    preorderAllF segs (c :: cs) = preorderAllNode segs c ++ preorderAllF segs cs := by
  simp [preorderAllF]

theorem preorderAllF_mem {e : String × BrowsePath} :
    ∀ {cs : List BrowsePath} {segs}, e ∈ preorderAllF segs cs ↔
      ∃ c ∈ cs, e ∈ preorderAllNode segs c := by
  intro cs
  induction cs with
  | nil => simp
  | cons c cs ih =>
      intro segs
      simp [List.mem_append, ih]

theorem preorderAllNode_field :
    ∀ t : BrowsePath, t.is_field = true → FieldClosed t →
      ∀ segs, ∀ e ∈ preorderAllNode segs t, e.2.is_field = true := by
  intro t
  induction t using browseInd with
  | _ n f s eT eST cs ih =>
      intro hf hfc segs e he
      simp only [preorderAllNode] at he
      rcases List.mem_cons.mp he with rfl | he
      · simpa using hf
      · obtain ⟨c, hc, hec⟩ := preorderAllF_mem.mp he
        exact ih c hc (hfc.flag hf c (by simpa using hc)) (hfc.childrenClosed c (by simpa using hc)) _ e hec

theorem flattenF_filter_aux :
    ∀ (cs : List BrowsePath) segs,
      (∀ c ∈ cs, flattenNode segs c =
        (preorderAllNode segs c).filter (fun e => !e.2.is_field)) →
      flattenF segs cs = (preorderAllF segs cs).filter (fun e => !e.2.is_field)
  | [], segs, _ => by simp
  | c :: cs, segs, h => by
      simp only [flattenF_cons, preorderAllF_cons, List.filter_append]
      rw [h c (by simp), flattenF_filter_aux cs segs (fun d hd => h d (by simp [hd]))]

theorem flattenNode_eq_filter :
    ∀ t : BrowsePath, FieldClosed t → ∀ segs,
      flattenNode segs t = (preorderAllNode segs t).filter (fun e => !e.2.is_field) := by
  intro t
  induction t using browseInd with
  | _ n f s eT eST cs ih =>
      intro hfc segs
      cases f with
      | true =>
          simp only [flattenNode, preorderAllNode, if_pos, List.filter_cons]
          have hall : ∀ e ∈ preorderAllF (segs ++ [n]) cs, e.2.is_field = true := by
            intro e he
            obtain ⟨c, hc, hec⟩ := preorderAllF_mem.mp he
            exact preorderAllNode_field c (hfc.flag (by simp) c (by simpa using hc))
              (hfc.childrenClosed c (by simpa using hc)) _ e hec
          simp only [BrowsePath.is_field_mk, Bool.not_true, Bool.false_eq_true,
            if_neg, reduceIte]
          rw [List.filter_eq_nil_iff.mpr]
          intro e he
          simp [hall e he]
      | false =>
          simp only [flattenNode, preorderAllNode, Bool.false_eq_true, if_neg,
            reduceIte, List.filter_cons, BrowsePath.is_field_mk, Bool.not_false]
          rw [flattenF_filter_aux cs (segs ++ [n])
            (fun c hc => ih c hc (hfc.childrenClosed c (by simpa using hc)) _)]

/-- C2 (amended): convert_browse_rules with flat=true returns the pre-order
traversal restricted to the literal (is_field = false) nodes - field nodes
and their descendants are omitted - each entry carrying its computed full
path. -/
theorem c2_flat_is_literal_preorder (rules : List BrowseRule) :
    convert_browse_rules_flat rules =
      (preorderAllF [] (convert_browse_rules rules)).filter (fun e => !e.2.is_field) := by
  unfold convert_browse_rules_flat
  exact flattenF_filter_aux _ []
    (fun c hc => flattenNode_eq_filter c (convert_browse_rules_fieldClosed rules c hc) [])

/-- C2 counterexample: for the single rule with name path X and category F,
the flat output contains only the literal node X, while the pre-order
traversal of all nodes also contains the field node at full path X/F; the
flat listing is not the traversal of all nodes. -/
theorem c2_counterexample :
    convert_browse_rules_flat [BrowseRule.mk "X" "F" ""] ≠
      preorderAllF [] (convert_browse_rules [BrowseRule.mk "X" "F" ""]) := by
  have h1 : convert_browse_rules [BrowseRule.mk "X" "F" ""] =
      [BrowsePath.mk "X" false "" [] [] [BrowsePath.mk "F" true "" [] [] []]] := by
    simp +decide [convert_browse_rules, buildForest, insertRule, BrowseRule.get_names,
      BrowseRule.get_categories, splitc, splitcAux, RULE_SEP, nameChain, catChain,
      mergeForest, infer, inferF, extract_media_types, extract_media_sub_types,
      extractTokenValue, dropAfterTok, mediaTypeTok, mediaSubTypeTok]
  have h2 : convert_browse_rules_flat [BrowseRule.mk "X" "F" ""] =
      [("X", BrowsePath.mk "X" false "" [] [] [BrowsePath.mk "F" true "" [] [] []])] := by
    rw [convert_browse_rules_flat, h1]
    simp +decide [flattenNode, joinSegs]
  have h3 : preorderAllF [] (convert_browse_rules [BrowseRule.mk "X" "F" ""]) =
      [("X", BrowsePath.mk "X" false "" [] [] [BrowsePath.mk "F" true "" [] [] []]),
        ("X/F", BrowsePath.mk "F" true "" [] [] [])] := by
    rw [h1]
    simp +decide [preorderAllNode, joinSegs]
  rw [h2, h3]
  simp

/-- Witness for C6: the shorthand forest for the lines b then a is sorted. -/
theorem c6_sibling_order_witness :
    SortedForest [BrowsePath.mk "a" false "" [] [] [], BrowsePath.mk "b" false "" [] [] []] :=
  c6_sibling_order.2 ["b", "a"] _ (by
    simp +decide [parse_browse_paths_from_text, parseLines, malformedLine, lineNameSegs,
      lineCatSegs, splitc, splitcAux, nameChain, catChain, mergeForest, infer, inferF,
      extract_media_types, extract_media_sub_types, extractTokenValue, dropAfterTok,
      mediaTypeTok, mediaSubTypeTok])

/-! ## Round-trip of full paths through the path matcher (claim C7) -/

/-- No name in the subtree contains the slash character used to join and
split full paths. -/
inductive SlashFreeNode : BrowsePath → Prop where
  | intro (n f s eT eST cs) : '/' ∉ n.data → (∀ c ∈ cs, SlashFreeNode c) →
      SlashFreeNode (.mk n f s eT eST cs)

theorem SlashFreeNode.name_free {t : BrowsePath} (h : SlashFreeNode t) :
    '/' ∉ t.name.data := by
  cases h with
  | intro n f s eT eST cs hn hcs => simpa only [BrowsePath.name_mk] using hn

theorem SlashFreeNode.childrenFree {t : BrowsePath} (h : SlashFreeNode t) :
    ∀ c ∈ t.children, SlashFreeNode c := by
  cases h with
  | intro n f s eT eST cs hn hcs => simpa only [BrowsePath.children_mk] using hcs

theorem mergeForest_slashFree :
    ∀ f g, (∀ a ∈ f, SlashFreeNode a) → (∀ b ∈ g, SlashFreeNode b) →
      ∀ c ∈ mergeForest f g, SlashFreeNode c := by
  intro f g
  induction f, g using mergeForest.induct with
  | case1 g =>
      intro _ hg c hc
      rw [mergeForest_nil_left] at hc
      exact hg c hc
  | case2 a as =>
      intro hf _ c hc
      rw [mergeForest_nil_right] at hc
      exact hf c hc
  | case3 n f s eT eST cs as n' f' s' eT' eST' cs' bs hlt ih =>
      intro hf hg c hc
      rw [mergeForest_cons_lt hlt] at hc
      rcases List.mem_cons.mp hc with rfl | hc
      · exact hf _ (by simp)
      · exact ih (fun a ha => hf a (by simp [ha])) hg c hc
  | case4 n f s eT eST cs as n' f' s' eT' eST' cs' bs hnlt hgt ih =>
      intro hf hg c hc
      rw [mergeForest_cons_gt hgt] at hc
      rcases List.mem_cons.mp hc with rfl | hc
      · exact hg _ (by simp)
      · exact ih hf (fun b hb => hg b (by simp [hb])) c hc
  | case5 n f s eT eST cs as n' f' s' eT' eST' cs' bs hnlt hngt ih1 ih2 =>
      intro hf hg c hc
      have heq : n = n' := le_antisymm (not_lt.mp hngt) (not_lt.mp hnlt)
      rw [mergeForest_cons_eq heq] at hc
      have hc1 := hf (BrowsePath.mk n f s eT eST cs) (by simp)
      have hc2 := hg (BrowsePath.mk n' f' s' eT' eST' cs') (by simp)
      rcases List.mem_cons.mp hc with rfl | hc
      · exact SlashFreeNode.intro _ _ _ _ _ _ (by simpa using hc1.name_free)
          (fun c hcm => ih1 (by simpa using hc1.childrenFree)
            (by simpa using hc2.childrenFree) c hcm)
      · exact ih2 (fun a ha => hf a (by simp [ha])) (fun b hb => hg b (by simp [hb])) c hc

theorem catChain_slashFree :
    ∀ cats, (∀ s ∈ cats, '/' ∉ s.data) → ∀ t ∈ catChain cats, SlashFreeNode t
  | [], _, t, ht => by simp [catChain] at ht
  | c :: rest, h, t, ht => by
      simp only [catChain, List.mem_singleton] at ht
      subst ht
      exact SlashFreeNode.intro _ _ _ _ _ _ (h c (by simp))
        (catChain_slashFree rest (fun s hs => h s (by simp [hs])))

theorem nameChain_slashFree (n : String) :
    ∀ rest cats srch, '/' ∉ n.data → (∀ s ∈ rest, '/' ∉ s.data) →
      (∀ s ∈ cats, '/' ∉ s.data) → SlashFreeNode (nameChain n rest cats srch)
  | [], cats, srch, hn, _, hcats =>
      SlashFreeNode.intro _ _ _ _ _ _ hn (catChain_slashFree cats hcats)
  | m :: rest, cats, srch, hn, hrest, hcats =>
      SlashFreeNode.intro _ _ _ _ _ _ hn
        (by
          intro c hc
          simp only [List.mem_singleton] at hc
          subst hc
          exact nameChain_slashFree m rest cats srch (hrest m (by simp))
            (fun s hs => hrest s (by simp [hs])) hcats)

theorem buildForest_slashFree (rules : List BrowseRule)
    (h : ∀ r ∈ rules, (∀ s ∈ r.get_names, '/' ∉ s.data) ∧
      (∀ s ∈ r.get_categories, '/' ∉ s.data)) :
    ∀ t ∈ buildForest rules, SlashFreeNode t := by
  unfold buildForest
  suffices hs : ∀ (rs : List BrowseRule) (acc : List BrowsePath),
      (∀ r ∈ rs, (∀ s ∈ r.get_names, '/' ∉ s.data) ∧
      (∀ s ∈ r.get_categories, '/' ∉ s.data)) → (∀ t ∈ acc, SlashFreeNode t) →
      ∀ t ∈ rs.foldl insertRule acc, SlashFreeNode t from
    hs rules [] h (by simp)
  intro rs
  induction rs with
  | nil => intro acc _ hacc; simpa
  | cons r rs ih =>
      intro acc hrs hacc
      refine ih (insertRule acc r) (fun x hx => hrs x (by simp [hx])) ?_
      unfold insertRule
      cases hn : r.get_names with
      | nil => exact hacc
      | cons n rest =>
          refine mergeForest_slashFree _ _ hacc ?_
          intro t ht
          simp only [List.mem_singleton] at ht
          subst ht
          have hr := hrs r (by simp)
          rw [hn] at hr
          exact nameChain_slashFree n rest r.get_categories r.search
            (hr.1 n (by simp)) (fun s hsx => hr.1 s (by simp [hsx])) hr.2

theorem infer_slashFree :
    ∀ t : BrowsePath, SlashFreeNode t → ∀ pT pST, SlashFreeNode (infer pT pST t) := by
  intro t
  induction t using browseInd with
  | _ n f s eT eST cs ih =>
      intro hsl pT pST
      simp only [infer]
      refine SlashFreeNode.intro _ _ _ _ _ _ (by simpa using hsl.name_free) ?_
      intro c hc
      rw [inferF_eq_map] at hc
      obtain ⟨d, hd, rfl⟩ := List.mem_map.mp hc
      exact ih d hd (hsl.childrenFree d (by simpa using hd)) _ _

theorem convert_browse_rules_slashFree (rules : List BrowseRule)
    (h : ∀ r ∈ rules, (∀ s ∈ r.get_names, '/' ∉ s.data) ∧
      (∀ s ∈ r.get_categories, '/' ∉ s.data)) :
    ∀ t ∈ convert_browse_rules rules, SlashFreeNode t := by
  unfold convert_browse_rules
  intro t ht
  rw [inferF_eq_map] at ht
  obtain ⟨d, hd, rfl⟩ := List.mem_map.mp ht
  exact infer_slashFree d (buildForest_slashFree rules h d hd) _ _

/-! ## Splitting a joined slash-free path recovers the segments -/

theorem asString_data (s : String) : List.asString s.data = s := rfl

theorem splitcAux_no_sep (sep : Char) :
    ∀ l : List Char, sep ∉ l → splitcAux sep l = [l]
  | [], _ => by simp [splitcAux]
  | c :: cs, h => by
      have hc : ¬ c = sep := fun hcs => h (by simp [hcs])
      have ht : sep ∉ cs := fun hcs => h (by simp [hcs])
      simp only [splitcAux, if_neg hc, splitcAux_no_sep sep cs ht]

theorem splitcAux_append (sep : Char) :
    ∀ l1 l2 : List Char, sep ∉ l1 →
      splitcAux sep (l1 ++ sep :: l2) = l1 :: splitcAux sep l2
  | [], l2, _ => by simp [splitcAux]
  | c :: cs, l2, h => by
      have hc : ¬ c = sep := fun hcs => h (by simp [hcs])
      have ht : sep ∉ cs := fun hcs => h (by simp [hcs])
      simp only [List.cons_append, splitcAux, if_neg hc, List.append_eq,
        splitcAux_append sep cs l2 ht]

theorem splitc_joinSegs :
    ∀ segs : List String, segs ≠ [] → (∀ s ∈ segs, '/' ∉ s.data) →
      splitc '/' (joinSegs segs) = segs
  | [], h, _ => absurd rfl h
  | [s], _, hfree => by
      simp only [joinSegs, splitc]
      rw [splitcAux_no_sep '/' s.data (hfree s (by simp))]
      simp [asString_data]
  | s :: s' :: rest, _, hfree => by
      have hdata : (s ++ "/" ++ joinSegs (s' :: rest)).data =
          s.data ++ '/' :: (joinSegs (s' :: rest)).data := by
        simp [String.data_append]
      simp only [joinSegs, splitc]
      rw [hdata, splitcAux_append '/' s.data _ (hfree s (by simp))]
      simp only [List.map_cons, asString_data]
      have hrec := splitc_joinSegs (s' :: rest) (by simp)
        (fun x hx => hfree x (by simp [hx]))
      simp only [splitc] at hrec
      rw [hrec]

/-! ## Segment-level flat listing -/

mutual
/-- The flat listing of a subtree with relative segment paths instead of
joined strings; used to relate the flat listing with the path matcher. -/
def fseg : BrowsePath → List (List String × BrowsePath)
  | .mk n f s eT eST cs =>
      if f then []
      else ([n], .mk n f s eT eST cs) ::
        (fsegF cs).map (fun e => (n :: e.1, e.2))

/-- The segment-level flat listing of a sibling list. -/
def fsegF : List BrowsePath → List (List String × BrowsePath)
  | [] => []
  | c :: cs => fseg c ++ fsegF cs
end

@[simp] theorem fsegF_nil : fsegF [] = [] := by simp [fsegF]

@[simp] theorem fsegF_cons (c cs) : fsegF (c :: cs) = fseg c ++ fsegF cs := by
  simp [fsegF]

theorem fsegF_mem {e : List String × BrowsePath} :
    ∀ {cs : List BrowsePath}, e ∈ fsegF cs ↔ ∃ c ∈ cs, e ∈ fseg c := by
  intro cs
  induction cs with
  | nil => simp
  | cons c cs ih => simp [List.mem_append, ih]

theorem flattenF_eq_fsegF_aux :
    ∀ (cs : List BrowsePath) segs,
      (∀ c ∈ cs, ∀ segs', flattenNode segs' c =
        (fseg c).map (fun e => (joinSegs (segs' ++ e.1), e.2))) →
      flattenF segs cs = (fsegF cs).map (fun e => (joinSegs (segs ++ e.1), e.2))
  | [], segs, _ => by simp
  | c :: cs, segs, h => by
      simp only [flattenF_cons, fsegF_cons, List.map_append]
      rw [h c (by simp) segs,
        flattenF_eq_fsegF_aux cs segs (fun d hd => h d (by simp [hd]))]

theorem flattenNode_eq_fseg :
    ∀ t : BrowsePath, ∀ segs, flattenNode segs t =
      (fseg t).map (fun e => (joinSegs (segs ++ e.1), e.2)) := by
  intro t
  induction t using browseInd with
  | _ n f s eT eST cs ih =>
      intro segs
      cases f with
      | true => simp [flattenNode, fseg]
      | false =>
          simp only [flattenNode, fseg, Bool.false_eq_true, if_neg, reduceIte,
            List.map_cons, List.map_map]
          refine congrArg₂ _ rfl ?_
          rw [flattenF_eq_fsegF_aux cs (segs ++ [n]) (fun c hc => ih c hc)]
          refine List.map_congr_left ?_
          intro e he
          simp [Function.comp]

theorem fseg_entry :
    ∀ t : BrowsePath, SlashFreeNode t → ∀ segs u, (segs, u) ∈ fseg t →
      segs ≠ [] ∧ (∀ s ∈ segs, '/' ∉ s.data) := by
  intro t
  induction t using browseInd with
  | _ n f s eT eST cs ih =>
      intro hsl segs u hmem
      cases f with
      | true => simp [fseg] at hmem
      | false =>
          simp only [fseg, Bool.false_eq_true, if_neg, reduceIte, List.mem_cons,
            List.mem_map] at hmem
          rcases hmem with heq | ⟨e, he, heq⟩
          · have h1 : segs = [n] := congrArg Prod.fst heq
            subst h1
            refine ⟨by simp, ?_⟩
            intro x hx
            simp only [List.mem_singleton] at hx
            subst hx
            simpa using hsl.name_free
          · obtain ⟨c, hc, hec⟩ := fsegF_mem.mp he
            have hrec := ih c hc (hsl.childrenFree c (by simpa using hc)) e.1 e.2 (by simpa using hec)
            have h1 : n :: e.1 = segs := congrArg Prod.fst heq
            rw [← h1]
            refine ⟨by simp, ?_⟩
            intro x hx
            rcases List.mem_cons.mp hx with rfl | hx
            · simpa using hsl.name_free
            · exact hrec.2 x hx

theorem fseg_mem_literal {e : List String × BrowsePath} {c : BrowsePath}
    (h : e ∈ fseg c) : c.is_field = false := by
  cases c with
  | mk m fc sc eTc eSTc csc =>
      cases fc with
      | true => simp [fseg] at h
      | false => simp

theorem findLiteral_of_sorted :
    ∀ cs : List BrowsePath, List.Pairwise (fun a b : BrowsePath => a.name < b.name) cs →
      ∀ c ∈ cs, c.is_field = false → findLiteral c.name cs = some c
  | [], _, c, hc, _ => absurd hc (by simp)
  | a :: cs, hp, c, hc, hlit => by
      obtain ⟨hb, ht⟩ := List.pairwise_cons.mp hp
      rcases List.mem_cons.mp hc with rfl | hc
      · simp [findLiteral, hlit]
      · have hne : a.name ≠ c.name := ne_of_lt (hb c hc)
        have hcond : ¬ (a.is_field = false ∧ a.name = c.name) := fun hx => hne hx.2
        simp only [findLiteral, if_neg hcond]
        exact findLiteral_of_sorted cs ht c hc hlit

theorem walkPath_fsegF :
    ∀ t : BrowsePath, SortedNode t → ∀ segs u, (segs, u) ∈ fsegF t.children →
      walkPath t segs = some u := by
  intro t
  induction t using browseInd with
  | _ n f s eT eST cs ih =>
      intro hsort segs u hmem
      simp only [BrowsePath.children_mk] at hmem
      obtain ⟨c, hc, hec⟩ := fsegF_mem.mp hmem
      have hlit : c.is_field = false := fseg_mem_literal hec
      have hfind : findLiteral c.name cs = some c :=
        findLiteral_of_sorted cs
          (by simpa only [BrowsePath.children_mk] using hsort.children_pairwise)
          c hc hlit
      cases c with
      | mk m fc sc eTc eSTc csc =>
          simp only [BrowsePath.is_field_mk] at hlit
          subst hlit
          simp only [fseg, Bool.false_eq_true, if_neg, reduceIte, List.mem_cons,
            List.mem_map] at hec
          rcases hec with heq | ⟨e, he, heq⟩
          · have h1 : segs = [m] := congrArg Prod.fst heq
            have h2 : u = BrowsePath.mk m false sc eTc eSTc csc :=
              congrArg Prod.snd heq
            subst h1
            subst h2
            simp only [walkPath, BrowsePath.children_mk]
            rw [show m = (BrowsePath.mk m false sc eTc eSTc csc).name from rfl, hfind]
            simp [walkPath]
          · have h1 : m :: e.1 = segs := congrArg Prod.fst heq
            have h2 : e.2 = u := congrArg Prod.snd heq
            rw [← h1]
            simp only [walkPath, BrowsePath.children_mk]
            rw [show m = (BrowsePath.mk m false sc eTc eSTc csc).name from rfl, hfind]
            rw [← h2]
            exact ih _ hc
              (hsort.children_sorted _ (by simpa using hc)) e.1 e.2
              (by simpa using he)

theorem search_fsegF (F : List BrowsePath) (hs : SortedForest F) :
    ∀ segs u, (segs, u) ∈ fsegF F → search_for_path F segs = some u := by
  intro segs u hmem
  obtain ⟨r, hr, her⟩ := fsegF_mem.mp hmem
  have hlit : r.is_field = false := fseg_mem_literal her
  have hfind : findLiteral r.name F = some r := findLiteral_of_sorted F hs.1 r hr hlit
  cases r with
  | mk m fc sc eTc eSTc csc =>
      simp only [BrowsePath.is_field_mk] at hlit
      subst hlit
      simp only [fseg, Bool.false_eq_true, if_neg, reduceIte, List.mem_cons,
        List.mem_map] at her
      rcases her with heq | ⟨e, he, heq⟩
      · have h1 : segs = [m] := congrArg Prod.fst heq
        have h2 : u = BrowsePath.mk m false sc eTc eSTc csc :=
          congrArg Prod.snd heq
        subst h1
        subst h2
        simp only [search_for_path]
        rw [show m = (BrowsePath.mk m false sc eTc eSTc csc).name from rfl, hfind]
        simp [walkPath]
      · have h1 : m :: e.1 = segs := congrArg Prod.fst heq
        have h2 : e.2 = u := congrArg Prod.snd heq
        rw [← h1]
        simp only [search_for_path]
        rw [show m = (BrowsePath.mk m false sc eTc eSTc csc).name from rfl, hfind]
        rw [← h2]
        exact walkPath_fsegF _ (hs.2 _ hr) e.1 e.2 (by simpa using he)

/-- C7 (amended): for every rule list whose name and category segments are
free of the slash character, every entry of the flat listing of the built
and inferred forest round-trips: splitting its full path on slash and
resolving the segments with the path matcher over the same forest returns
that same node. -/
theorem c7_roundtrip (rules : List BrowseRule)
    (h : ∀ r ∈ rules, (∀ s ∈ r.get_names, '/' ∉ s.data) ∧
      (∀ s ∈ r.get_categories, '/' ∉ s.data)) :
    ∀ fp t, (fp, t) ∈ convert_browse_rules_flat rules →
      search_for_path (convert_browse_rules rules) (splitc '/' fp) = some t := by
  intro fp t hmem
  unfold convert_browse_rules_flat at hmem
  rw [flattenF_eq_fsegF_aux (convert_browse_rules rules) []
    (fun c _ segs' => flattenNode_eq_fseg c segs')] at hmem
  obtain ⟨e, he, heq⟩ := List.mem_map.mp hmem
  obtain ⟨r, hr, her⟩ := fsegF_mem.mp he
  have hent := fseg_entry r (convert_browse_rules_slashFree rules h r hr) e.1 e.2
    (by simpa using her)
  have h1 : joinSegs ([] ++ e.1) = fp := congrArg Prod.fst heq
  have h2 : e.2 = t := congrArg Prod.snd heq
  rw [← h1]
  simp only [List.nil_append]
  rw [splitc_joinSegs e.1 hent.1 hent.2, ← h2]
  exact search_fsegF _ (convert_browse_rules_sorted rules) e.1 e.2 he

/-- Witness for C7 at a concrete slash-free rule list. -/
theorem c7_roundtrip_witness :
    search_for_path (convert_browse_rules [BrowseRule.mk "X" "F" ""]) (splitc '/' "X") =
      some (BrowsePath.mk "X" false "" [] [] [BrowsePath.mk "F" true "" [] [] []]) := by
  have h1 : convert_browse_rules_flat [BrowseRule.mk "X" "F" ""] =
      [("X", BrowsePath.mk "X" false "" [] [] [BrowsePath.mk "F" true "" [] [] []])] := by
    simp +decide [convert_browse_rules_flat, convert_browse_rules, buildForest,
      insertRule, BrowseRule.get_names, BrowseRule.get_categories, splitc, splitcAux,
      RULE_SEP, nameChain, catChain, mergeForest, infer, inferF, extract_media_types,
      extract_media_sub_types, extractTokenValue, dropAfterTok, mediaTypeTok,
      mediaSubTypeTok, flattenNode, joinSegs]
  refine c7_roundtrip [BrowseRule.mk "X" "F" ""] (by decide) "X" _ ?_
  rw [h1]
  simp

/-- C7 counterexample: a rule whose single name segment contains a slash
produces a flattened node whose full path does not survive the split on
slash; the path matcher returns none instead of the node. -/
theorem c7_counterexample :
    ("A/B", BrowsePath.mk "A/B" false "" [] [] []) ∈
      convert_browse_rules_flat [BrowseRule.mk "A/B" "" ""] ∧
    search_for_path (convert_browse_rules [BrowseRule.mk "A/B" "" ""])
      (splitc '/' "A/B") = none := by
  have h1 : convert_browse_rules [BrowseRule.mk "A/B" "" ""] =
      [BrowsePath.mk "A/B" false "" [] [] []] := by
    simp +decide [convert_browse_rules, buildForest, insertRule, BrowseRule.get_names,
      BrowseRule.get_categories, splitc, splitcAux, RULE_SEP, nameChain, catChain,
      mergeForest, infer, inferF, extract_media_types, extract_media_sub_types,
      extractTokenValue, dropAfterTok, mediaTypeTok, mediaSubTypeTok]
  constructor
  · rw [convert_browse_rules_flat, h1]
    simp +decide [flattenNode, joinSegs]
  · rw [h1]
    have h2 : splitc '/' "A/B" = ["A", "B"] := by decide
    rw [h2]
    simp +decide [search_for_path, findLiteral]

/-! ## Inheritance of effective media classification (claims C5 and C3) -/

/-- The node addressed by a list of child indices within a tree. -/
def nodeAt : BrowsePath → List Nat → Option BrowsePath
  | t, [] => some t
  | t, i :: is =>
      match t.children.get? i with
      | some c => nodeAt c is
      | none => none

/-- The node addressed by a root index followed by child indices within a
forest; the empty path addresses no node. -/
def nodeAtF (F : List BrowsePath) : List Nat → Option BrowsePath
  | [] => none
  | i :: is =>
      match F.get? i with
      | some t => nodeAt t is
      | none => none

/-- Every node's effective values are its explicit values (extracted from
its own search predicate) when non-empty, else its parent's effective
values, recursively below the node. -/
inductive InferOK : BrowsePath → Prop where
  | intro (n f s eT eST cs) :
      (∀ c ∈ cs, c.effective_media_types =
        (if extract_media_types c.search = [] then eT
          else extract_media_types c.search)) →
      (∀ c ∈ cs, c.effective_media_sub_types =
        (if extract_media_sub_types c.search = [] then eST
          else extract_media_sub_types c.search)) →
      (∀ c ∈ cs, InferOK c) →
      InferOK (.mk n f s eT eST cs)

theorem InferOK.child {t c : BrowsePath} (h : InferOK t) (hc : c ∈ t.children) :
    (c.effective_media_types =
      (if extract_media_types c.search = [] then t.effective_media_types
        else extract_media_types c.search)) ∧
    (c.effective_media_sub_types =
      (if extract_media_sub_types c.search = [] then t.effective_media_sub_types
        else extract_media_sub_types c.search)) ∧
    InferOK c := by
  cases h with
  | intro n f s eT eST cs h1 h2 h3 =>
      simp only [BrowsePath.children_mk] at hc
      exact ⟨by simpa using h1 c hc, by simpa using h2 c hc, h3 c hc⟩

theorem infer_effT (pT pST) (t : BrowsePath) :
    (infer pT pST t).effective_media_types =
      (if extract_media_types t.search = [] then pT else extract_media_types t.search) := by
  cases t with
  | mk n f s eT eST cs =>
      simp only [infer, BrowsePath.effective_media_types_mk, BrowsePath.search_mk]

theorem infer_effST (pT pST) (t : BrowsePath) :
    (infer pT pST t).effective_media_sub_types =
      (if extract_media_sub_types t.search = [] then pST
        else extract_media_sub_types t.search) := by
  cases t with
  | mk n f s eT eST cs =>
      simp only [infer, BrowsePath.effective_media_sub_types_mk, BrowsePath.search_mk]

theorem infer_InferOK : ∀ t : BrowsePath, ∀ pT pST, InferOK (infer pT pST t) := by
  intro t
  induction t using browseInd with
  | _ n f s eT eST cs ih =>
      intro pT pST
      simp only [infer]
      refine InferOK.intro _ _ _ _ _ _ ?_ ?_ ?_ <;>
        (intro c hc
         rw [inferF_eq_map] at hc
         obtain ⟨d, hd, rfl⟩ := List.mem_map.mp hc)
      · rw [infer_search]
        exact infer_effT _ _ d
      · rw [infer_search]
        exact infer_effST _ _ d
      · exact ih d hd _ _

theorem nodeAt_InferOK :
    ∀ (p : List Nat) (t nd : BrowsePath), InferOK t → nodeAt t p = some nd → InferOK nd
  | [], t, nd, h, hp => by
      simp only [nodeAt, Option.some.injEq] at hp
      subst hp
      exact h
  | i :: is, t, nd, h, hp => by
      simp only [nodeAt] at hp
      split at hp
      · next c hc =>
          exact nodeAt_InferOK is c nd (h.child (List.get?_mem hc)).2.2 hp
      · exact absurd hp (by simp)

theorem ite_eq_nil_iff {α : Type} (c : Prop) [Decidable c] (a b : List α) :
    (if c then a else b) = [] ↔ (c ∧ a = []) ∨ (¬ c ∧ b = []) := by
  split <;> simp_all

theorem effT_empty_iff :
    ∀ (p : List Nat) (t : BrowsePath) (pT : List MediaType) (pST : List MediaSubType) nd,
      nodeAt (infer pT pST t) p = some nd →
      (nd.effective_media_types = [] ↔
        (pT = [] ∧ ∀ q rest nd', p = q ++ rest →
          nodeAt (infer pT pST t) q = some nd' →
          extract_media_types nd'.search = []))
  | [], t, pT, pST, nd, hp => by
      simp only [nodeAt, Option.some.injEq] at hp
      subst hp
      rw [infer_effT]
      constructor
      · intro h
        rcases (ite_eq_nil_iff _ _ _).mp h with ⟨hext, hpT⟩ | ⟨hext, hval⟩
        · refine ⟨hpT, ?_⟩
          intro q rest nd' hqr hq
          obtain ⟨hq0, _⟩ := List.append_eq_nil.mp hqr.symm
          subst hq0
          simp only [nodeAt, Option.some.injEq] at hq
          subst hq
          rw [infer_search]
          exact hext
        · exact absurd hval hext
      · rintro ⟨hpT, hall⟩
        have hext := hall [] [] (infer pT pST t) rfl (by simp [nodeAt])
        rw [infer_search] at hext
        simp [hext, hpT]
  | i :: is, t, pT, pST, nd, hp => by
      cases t with
      | mk n f s eT0 eST0 cs =>
          simp only [nodeAt, infer, BrowsePath.children_mk] at hp
          rw [inferF_eq_map, List.get?_map] at hp
          cases hd : cs.get? i with
          | none => rw [hd] at hp; simp at hp
          | some d =>
              rw [hd] at hp
              simp only [Option.map_some'] at hp
              have ih := effT_empty_iff is d
                (if extract_media_types s = [] then pT else extract_media_types s)
                (if extract_media_sub_types s = [] then pST else extract_media_sub_types s)
                nd hp
              rw [ih]
              constructor
              · rintro ⟨hE, hall⟩
                rcases (ite_eq_nil_iff _ _ _).mp hE with ⟨hext, hpT⟩ | ⟨hext, hval⟩
                · refine ⟨hpT, ?_⟩
                  intro q rest nd' hqr hq
                  cases q with
                  | nil =>
                      simp only [nodeAt, Option.some.injEq] at hq
                      subst hq
                      rw [infer_search]
                      exact hext
                  | cons j q' =>
                      have hji : j = i := by
                        have := congrArg (fun l => List.head? l) hqr
                        simpa using this.symm
                      subst hji
                      have hrest : is = q' ++ rest := by
                        have := congrArg List.tail hqr
                        simpa using this
                      simp only [nodeAt, infer, BrowsePath.children_mk] at hq
                      rw [inferF_eq_map, List.get?_map, hd] at hq
                      simp only [Option.map_some'] at hq
                      exact hall q' rest nd' hrest hq
                · exact absurd hval hext
              · rintro ⟨hpT, hall⟩
                have hroot := hall [] (i :: is) (infer pT pST (BrowsePath.mk n f s eT0 eST0 cs))
                  rfl (by simp [nodeAt])
                rw [infer_search] at hroot
                simp only [BrowsePath.search_mk] at hroot
                refine ⟨by simp [hroot, hpT], ?_⟩
                intro q rest nd' hqr hq
                refine hall (i :: q) rest nd' (by simp [hqr]) ?_
                simp only [nodeAt, infer, BrowsePath.children_mk]
                rw [inferF_eq_map, List.get?_map, hd]
                simpa using hq

theorem effST_empty_iff :
    ∀ (p : List Nat) (t : BrowsePath) (pT : List MediaType) (pST : List MediaSubType) nd,
      nodeAt (infer pT pST t) p = some nd →
      (nd.effective_media_sub_types = [] ↔
        (pST = [] ∧ ∀ q rest nd', p = q ++ rest →
          nodeAt (infer pT pST t) q = some nd' →
          extract_media_sub_types nd'.search = []))
  | [], t, pT, pST, nd, hp => by
      simp only [nodeAt, Option.some.injEq] at hp
      subst hp
      rw [infer_effST]
      constructor
      · intro h
        rcases (ite_eq_nil_iff _ _ _).mp h with ⟨hext, hpST⟩ | ⟨hext, hval⟩
        · refine ⟨hpST, ?_⟩
          intro q rest nd' hqr hq
          obtain ⟨hq0, _⟩ := List.append_eq_nil.mp hqr.symm
          subst hq0
          simp only [nodeAt, Option.some.injEq] at hq
          subst hq
          rw [infer_search]
          exact hext
        · exact absurd hval hext
      · rintro ⟨hpST, hall⟩
        have hext := hall [] [] (infer pT pST t) rfl (by simp [nodeAt])
        rw [infer_search] at hext
        simp [hext, hpST]
  | i :: is, t, pT, pST, nd, hp => by
      cases t with
      | mk n f s eT0 eST0 cs =>
          simp only [nodeAt, infer, BrowsePath.children_mk] at hp
          rw [inferF_eq_map, List.get?_map] at hp
          cases hd : cs.get? i with
          | none => rw [hd] at hp; simp at hp
          | some d =>
              rw [hd] at hp
              simp only [Option.map_some'] at hp
              have ih := effST_empty_iff is d
                (if extract_media_types s = [] then pT else extract_media_types s)
                (if extract_media_sub_types s = [] then pST else extract_media_sub_types s)
                nd hp
              rw [ih]
              constructor
              · rintro ⟨hE, hall⟩
                rcases (ite_eq_nil_iff _ _ _).mp hE with ⟨hext, hpST⟩ | ⟨hext, hval⟩
                · refine ⟨hpST, ?_⟩
                  intro q rest nd' hqr hq
                  cases q with
                  | nil =>
                      simp only [nodeAt, Option.some.injEq] at hq
                      subst hq
                      rw [infer_search]
                      exact hext
                  | cons j q' =>
                      have hji : j = i := by
                        have := congrArg (fun l => List.head? l) hqr
                        simpa using this.symm
                      subst hji
                      have hrest : is = q' ++ rest := by
                        have := congrArg List.tail hqr
                        simpa using this
                      simp only [nodeAt, infer, BrowsePath.children_mk] at hq
                      rw [inferF_eq_map, List.get?_map, hd] at hq
                      simp only [Option.map_some'] at hq
                      exact hall q' rest nd' hrest hq
                · exact absurd hval hext
              · rintro ⟨hpST, hall⟩
                have hroot := hall [] (i :: is) (infer pT pST (BrowsePath.mk n f s eT0 eST0 cs))
                  rfl (by simp [nodeAt])
                rw [infer_search] at hroot
                simp only [BrowsePath.search_mk] at hroot
                refine ⟨by simp [hroot, hpST], ?_⟩
                intro q rest nd' hqr hq
                refine hall (i :: q) rest nd' (by simp [hqr]) ?_
                simp only [nodeAt, infer, BrowsePath.children_mk]
                rw [inferF_eq_map, List.get?_map, hd]
                simpa using hq

theorem convert_root_infer (rules : List BrowseRule) (i : Nat) {r : BrowsePath}
    (h : (convert_browse_rules rules).get? i = some r) :
    ∃ d, (buildForest rules).get? i = some d ∧ r = infer [] [] d := by
  unfold convert_browse_rules at h
  rw [inferF_eq_map, List.get?_map] at h
  cases hd : (buildForest rules).get? i with
  | none => rw [hd] at h; simp at h
  | some d =>
      rw [hd] at h
      simp only [Option.map_some', Option.some.injEq] at h
      exact ⟨d, rfl, h.symm⟩

theorem convert_nodeAtF_InferOK (rules : List BrowseRule) :
    ∀ p nd, nodeAtF (convert_browse_rules rules) p = some nd → InferOK nd := by
  intro p nd h
  cases p with
  | nil => simp [nodeAtF] at h
  | cons i is =>
      simp only [nodeAtF] at h
      split at h
      · next r hr =>
          obtain ⟨d, hd, rfl⟩ := convert_root_infer rules i hr
          exact nodeAt_InferOK is _ nd (infer_InferOK d [] []) h
      · exact absurd h (by simp)

/-- C5: for every node of a built and inferred forest, the effective media
types (resp. sub-types) equal the node's explicit values - extracted from
its own search predicate - when those are non-empty, and the parent's
effective values otherwise (empty at a root); consequently a node's
effective list is empty exactly when no inclusive ancestor carries explicit
values. -/
theorem c5_effective_inheritance (rules : List BrowseRule) :
    (∀ i r, (convert_browse_rules rules).get? i = some r →
      r.effective_media_types =
        (if extract_media_types r.search = [] then []
          else extract_media_types r.search) ∧
      r.effective_media_sub_types =
        (if extract_media_sub_types r.search = [] then []
          else extract_media_sub_types r.search)) ∧
    (∀ p par i c, nodeAtF (convert_browse_rules rules) p = some par →
      par.children.get? i = some c →
      c.effective_media_types =
        (if extract_media_types c.search = [] then par.effective_media_types
          else extract_media_types c.search) ∧
      c.effective_media_sub_types =
        (if extract_media_sub_types c.search = [] then par.effective_media_sub_types
          else extract_media_sub_types c.search)) ∧
    (∀ p nd, nodeAtF (convert_browse_rules rules) p = some nd →
      ((nd.effective_media_types = [] ↔
        ∀ q rest nd', p = q ++ rest →
          nodeAtF (convert_browse_rules rules) q = some nd' →
          extract_media_types nd'.search = []) ∧
       (nd.effective_media_sub_types = [] ↔
        ∀ q rest nd', p = q ++ rest →
          nodeAtF (convert_browse_rules rules) q = some nd' →
          extract_media_sub_types nd'.search = []))) := by
  refine ⟨?_, ?_, ?_⟩
  · intro i r hr
    obtain ⟨d, hd, rfl⟩ := convert_root_infer rules i hr
    rw [infer_search]
    exact ⟨infer_effT _ _ d, infer_effST _ _ d⟩
  · intro p par i c hpar hc
    have hok := convert_nodeAtF_InferOK rules p par hpar
    have := hok.child (List.get?_mem hc)
    exact ⟨this.1, this.2.1⟩
  · intro p nd hnd
    cases p with
    | nil => simp [nodeAtF] at hnd
    | cons i is =>
        simp only [nodeAtF] at hnd
        split at hnd
        · next r hr =>
            obtain ⟨d, hd, rfl⟩ := convert_root_infer rules i hr
            constructor
            · rw [effT_empty_iff is d [] [] nd hnd]
              constructor
              · rintro ⟨-, hall⟩
                intro q rest nd' hqr hq
                cases q with
                | nil => simp [nodeAtF] at hq
                | cons j q' =>
                    have hji : j = i := by
                      have := congrArg (fun l => List.head? l) hqr
                      simpa using this.symm
                    subst hji
                    have hrest : is = q' ++ rest := by
                      have := congrArg List.tail hqr
                      simpa using this
                    simp only [nodeAtF, hr] at hq
                    exact hall q' rest nd' hrest hq
              · intro hall
                refine ⟨rfl, ?_⟩
                intro q rest nd' hqr hq
                refine hall (i :: q) rest nd' (by simp [hqr]) ?_
                simp only [nodeAtF, hr]
                exact hq
            · rw [effST_empty_iff is d [] [] nd hnd]
              constructor
              · rintro ⟨-, hall⟩
                intro q rest nd' hqr hq
                cases q with
                | nil => simp [nodeAtF] at hq
                | cons j q' =>
                    have hji : j = i := by
                      have := congrArg (fun l => List.head? l) hqr
                      simpa using this.symm
                    subst hji
                    have hrest : is = q' ++ rest := by
                      have := congrArg List.tail hqr
                      simpa using this
                    simp only [nodeAtF, hr] at hq
                    exact hall q' rest nd' hrest hq
              · intro hall
                refine ⟨rfl, ?_⟩
                intro q rest nd' hqr hq
                refine hall (i :: q) rest nd' (by simp [hqr]) ?_
                simp only [nodeAtF, hr]
                exact hq
        · exact absurd hnd (by simp)

/-- Witness for C5 at a concrete rule with an explicit media-type token. -/
theorem c5_effective_inheritance_witness :
    (BrowsePath.mk "A" false "[Media Type]=[Audio]" [MediaType.AUDIO_] [] []).effective_media_types =
      (if extract_media_types
          (BrowsePath.mk "A" false "[Media Type]=[Audio]" [MediaType.AUDIO_] [] []).search = []
        then []
        else extract_media_types
          (BrowsePath.mk "A" false "[Media Type]=[Audio]" [MediaType.AUDIO_] [] []).search) ∧
    (BrowsePath.mk "A" false "[Media Type]=[Audio]" [MediaType.AUDIO_] [] []).effective_media_sub_types =
      (if extract_media_sub_types
          (BrowsePath.mk "A" false "[Media Type]=[Audio]" [MediaType.AUDIO_] [] []).search = []
        then []
        else extract_media_sub_types
          (BrowsePath.mk "A" false "[Media Type]=[Audio]" [MediaType.AUDIO_] [] []).search) :=
  (c5_effective_inheritance [BrowseRule.mk "A" "" "[Media Type]=[Audio]"]).1 0 _ (by
    have h1 : convert_browse_rules [BrowseRule.mk "A" "" "[Media Type]=[Audio]"] =
        [BrowsePath.mk "A" false "[Media Type]=[Audio]" [MediaType.AUDIO_] [] []] := by
      simp +decide [convert_browse_rules, buildForest, insertRule, BrowseRule.get_names,
        BrowseRule.get_categories, splitc, splitcAux, RULE_SEP, nameChain, catChain,
        mergeForest, infer, inferF, extract_media_types, extract_media_sub_types,
        extractTokenValue, dropAfterTok, mediaTypeTok, mediaSubTypeTok,
        MediaType.ofValue, MediaSubType.ofValue]
    rw [h1]
    rfl)

/-- C3: explicit media classifications come only from the node's own search
predicate via the fixed tokens; a predicate without a recognized token, or
with an unrecognized value, contributes empty explicit lists (no failure),
and a node whose predicate is empty takes exactly its parent's effective
values, so it can become classified only by inheritance. -/
theorem c3_explicit_from_predicate :
    (∀ s : String, dropAfterTok mediaTypeTok s.data = none →
      extract_media_types s = []) ∧
    (∀ s : String, dropAfterTok mediaSubTypeTok s.data = none →
      extract_media_sub_types s = []) ∧
    (∀ s v, extractTokenValue mediaTypeTok s = some v → MediaType.ofValue v = none →
      extract_media_types s = []) ∧
    (∀ s v, extractTokenValue mediaSubTypeTok s = some v →
      MediaSubType.ofValue v = none → extract_media_sub_types s = []) ∧
    (∀ rules p par i c, nodeAtF (convert_browse_rules rules) p = some par →
      par.children.get? i = some c → c.search = "" →
      c.effective_media_types = par.effective_media_types ∧
      c.effective_media_sub_types = par.effective_media_sub_types) := by
  refine ⟨?_, ?_, ?_, ?_, ?_⟩
  · intro s h
    unfold extract_media_types extractTokenValue
    rw [h]
  · intro s h
    unfold extract_media_sub_types extractTokenValue
    rw [h]
  · intro s v h hv
    unfold extract_media_types
    rw [h]
    simp [hv]
  · intro s v h hv
    unfold extract_media_sub_types
    rw [h]
    simp [hv]
  · intro rules p par i c hpar hc hsearch
    have hok := convert_nodeAtF_InferOK rules p par hpar
    have hch := hok.child (List.get?_mem hc)
    rw [hsearch] at hch
    have hT : extract_media_types "" = [] := by decide
    have hST : extract_media_sub_types "" = [] := by decide
    rw [hT] at hch
    rw [hST] at hch
    simpa using ⟨hch.1, hch.2.1⟩

/-- Witness for C3 at concrete predicates and a concrete forest. -/
theorem c3_explicit_from_predicate_witness :
    extract_media_types "[Rating]=>=4" = [] ∧
    extract_media_types "[Media Type]=[Bogus]" = [] ∧
    (BrowsePath.mk "B" false "" [MediaType.AUDIO_] [] []).effective_media_types =
      (BrowsePath.mk "A" false "[Media Type]=[Audio]" [MediaType.AUDIO_] []
        [BrowsePath.mk "B" false "" [MediaType.AUDIO_] [] []]).effective_media_types := by
  refine ⟨?_, ?_, ?_⟩
  · exact c3_explicit_from_predicate.1 "[Rating]=>=4" (by decide)
  · exact c3_explicit_from_predicate.2.2.1 "[Media Type]=[Bogus]" "Bogus" (by decide) (by decide)
  · have h1 : convert_browse_rules
        [BrowseRule.mk "A" "" "[Media Type]=[Audio]", BrowseRule.mk "A\\B" "" ""] =
        [BrowsePath.mk "A" false "[Media Type]=[Audio]" [MediaType.AUDIO_] []
          [BrowsePath.mk "B" false "" [MediaType.AUDIO_] [] []]] := by
      simp +decide [convert_browse_rules, buildForest, insertRule, BrowseRule.get_names,
        BrowseRule.get_categories, splitc, splitcAux, RULE_SEP, nameChain, catChain,
        mergeForest, infer, inferF, extract_media_types, extract_media_sub_types,
        extractTokenValue, dropAfterTok, mediaTypeTok, mediaSubTypeTok,
        MediaType.ofValue, MediaSubType.ofValue]
    have hpar : nodeAtF (convert_browse_rules
        [BrowseRule.mk "A" "" "[Media Type]=[Audio]", BrowseRule.mk "A\\B" "" ""]) [0] =
        some (BrowsePath.mk "A" false "[Media Type]=[Audio]" [MediaType.AUDIO_] []
          [BrowsePath.mk "B" false "" [MediaType.AUDIO_] [] []]) := by
      rw [nodeAtF, h1]
      rfl
    exact (c3_explicit_from_predicate.2.2.2.2
      [BrowseRule.mk "A" "" "[Media Type]=[Audio]", BrowseRule.mk "A\\B" "" ""]
      [0] _ 0 _ hpar rfl rfl).1

/-! ## Path matcher step behaviour (claim C1) -/

theorem findLiteral_eq_none :
    ∀ cs : List BrowsePath, ∀ c : String,
      (∀ l ∈ cs, l.is_field = false → l.name ≠ c) → findLiteral c cs = none
  | [], c, _ => by simp [findLiteral]
  | a :: cs, c, h => by
      have hcond : ¬ (a.is_field = false ∧ a.name = c) := fun hx => h a (by simp) hx.1 hx.2
      simp only [findLiteral, if_neg hcond]
      exact findLiteral_eq_none cs c (fun l hl => h l (by simp [hl]))

theorem findLiteral_some_spec :
    ∀ cs : List BrowsePath, ∀ c : String, ∀ r : BrowsePath,
      findLiteral c cs = some r → r ∈ cs ∧ r.is_field = false ∧ r.name = c
  | [], c, r, h => by simp [findLiteral] at h
  | a :: cs, c, r, h => by
      by_cases hcond : a.is_field = false ∧ a.name = c
      · simp only [findLiteral, if_pos hcond, Option.some.injEq] at h
        subst h
        exact ⟨by simp, hcond⟩
      · simp only [findLiteral, if_neg hcond] at h
        have := findLiteral_some_spec cs c r h
        exact ⟨by simp [this.1], this.2⟩

theorem filter_field_eq_singleton :
    ∀ (l : List BrowsePath) (ch : BrowsePath),
      List.Pairwise (fun a b : BrowsePath => a.name < b.name) l →
      ch ∈ l → ch.is_field = true → (∀ d ∈ l, d.is_field = true → d = ch) →
      l.filter (fun d => d.is_field) = [ch]
  | [], ch, _, hmem, _, _ => by simp at hmem
  | a :: l, ch, hp, hmem, hch, huniq => by
      obtain ⟨hb, ht⟩ := List.pairwise_cons.mp hp
      by_cases ha : a.is_field = true
      · have hach : a = ch := huniq a (by simp) ha
        subst hach
        have hnil : l.filter (fun d => d.is_field) = [] := by
          rw [List.filter_eq_nil_iff]
          intro d hd hdf
          have hda : d = a := huniq d (by simp [hd]) (by simpa using hdf)
          subst hda
          exact absurd (hb d hd) (lt_irrefl _)
        simp [List.filter_cons, ha, hnil]
      · have hne : ch ≠ a := fun hx => ha (hx ▸ hch)
        have hmem' : ch ∈ l := by
          rcases List.mem_cons.mp hmem with rfl | hx
          · exact absurd rfl hne
          · exact hx
        have hrec := filter_field_eq_singleton l ch ht hmem' hch
          (fun d hd => huniq d (by simp [hd]))
        simp [List.filter_cons, ha, hrec]

/-- C1: one step of the path matcher - a literal child whose name equals
the segment exactly is entered first; failing that, a unique field child is
entered as a wildcard regardless of the segment; with no literal match and
no unique field child the walk fails immediately; and at the forest root
only literal root names are tried, with no wildcard matching. -/
theorem c1_search_step :
    (∀ (node : BrowsePath) (c : String) (rest : List String) (ch : BrowsePath),
      List.Pairwise (fun a b : BrowsePath => a.name < b.name) node.children →
      ch ∈ node.children → ch.is_field = false → ch.name = c →
      walkPath node (c :: rest) = walkPath ch rest) ∧
    (∀ (node : BrowsePath) (c : String) (rest : List String) (ch : BrowsePath),
      (∀ l ∈ node.children, l.is_field = false → l.name ≠ c) →
      List.Pairwise (fun a b : BrowsePath => a.name < b.name) node.children →
      ch ∈ node.children → ch.is_field = true →
      (∀ d ∈ node.children, d.is_field = true → d = ch) →
      walkPath node (c :: rest) = walkPath ch rest) ∧
    (∀ (node : BrowsePath) (c : String) (rest : List String),
      (∀ l ∈ node.children, l.is_field = false → l.name ≠ c) →
      (node.children.filter (fun d => d.is_field)).length ≠ 1 →
      walkPath node (c :: rest) = none) ∧
    (∀ (forest : List BrowsePath) (c : String) (rest : List String),
      (∀ r ∈ forest, r.is_field = false → r.name ≠ c) →
      search_for_path forest (c :: rest) = none) ∧
    (∀ (forest : List BrowsePath) (crumbs : List String) (r : BrowsePath),
      search_for_path forest crumbs = some r →
      ∃ c rest root, crumbs = c :: rest ∧ root ∈ forest ∧ root.is_field = false ∧
        root.name = c) := by
  refine ⟨?_, ?_, ?_, ?_, ?_⟩
  · intro node c rest ch hp hmem hlit hname
    have hfind : findLiteral c node.children = some ch := by
      rw [← hname]
      exact findLiteral_of_sorted node.children hp ch hmem hlit
    simp only [walkPath, hfind]
  · intro node c rest ch hnolit hp hmem hfield huniq
    have hfind : findLiteral c node.children = none := findLiteral_eq_none _ c hnolit
    have hfk : fieldKids node.children = [ch] :=
      filter_field_eq_singleton node.children ch hp hmem hfield huniq
    simp only [walkPath, hfind, hfk]
  · intro node c rest hnolit hlen
    have hfind : findLiteral c node.children = none := findLiteral_eq_none _ c hnolit
    simp only [walkPath, hfind]
    cases hfk : fieldKids node.children with
    | nil => simp
    | cons x xs =>
        cases xs with
        | nil =>
            have hone : (node.children.filter (fun d => d.is_field)).length = 1 := by
              rw [show node.children.filter (fun d => d.is_field) = [x] from hfk]
              rfl
            exact absurd hone hlen
        | cons y ys => simp
  · intro forest c rest hnolit
    have hfind : findLiteral c forest = none := findLiteral_eq_none _ c hnolit
    simp only [search_for_path, hfind]
  · intro forest crumbs r h
    cases crumbs with
    | nil => simp [search_for_path] at h
    | cons c rest =>
        simp only [search_for_path] at h
        cases hfind : findLiteral c forest with
        | none => rw [hfind] at h; simp at h
        | some root =>
            have := findLiteral_some_spec forest c root hfind
            exact ⟨c, rest, root, rfl, this⟩

/-- Witness for C1: a literal match is taken, a lone field child acts as a
wildcard, and a field node at the forest root is never entered. -/
theorem c1_search_step_witness :
    walkPath (BrowsePath.mk "P" false "" [] []
        [BrowsePath.mk "A" false "" [] [] [], BrowsePath.mk "W" true "" [] [] []])
      ["A"] = some (BrowsePath.mk "A" false "" [] [] []) ∧
    walkPath (BrowsePath.mk "P" false "" [] []
        [BrowsePath.mk "A" false "" [] [] [], BrowsePath.mk "W" true "" [] [] []])
      ["Z"] = some (BrowsePath.mk "W" true "" [] [] []) ∧
    search_for_path [BrowsePath.mk "R" true "" [] [] []] ["R"] = none := by
  refine ⟨?_, ?_, ?_⟩
  · have h := c1_search_step.1
      (BrowsePath.mk "P" false "" [] []
        [BrowsePath.mk "A" false "" [] [] [], BrowsePath.mk "W" true "" [] [] []])
      "A" [] (BrowsePath.mk "A" false "" [] [] [])
      (by simp +decide [List.pairwise_cons]) (by simp) rfl rfl
    rw [h]
    simp [walkPath]
  · have h := c1_search_step.2.1
      (BrowsePath.mk "P" false "" [] []
        [BrowsePath.mk "A" false "" [] [] [], BrowsePath.mk "W" true "" [] [] []])
      "Z" [] (BrowsePath.mk "W" true "" [] [] [])
      (by decide) (by simp +decide [List.pairwise_cons]) (by simp) rfl (by simp)
    rw [h]
    simp [walkPath]
  · exact c1_search_step.2.2.2.1 [BrowsePath.mk "R" true "" [] [] []] "R" [] (by decide)

/-! ## Shorthand parser fail-fast behaviour (claim C8) -/

theorem parseLines_error_of_malformed :
    ∀ (lines : List String) (acc : List BrowsePath),
      (∃ l ∈ lines, malformedLine l = true) →
      ∃ l, parseLines lines acc = .error l ∧ l ∈ lines ∧ malformedLine l = true
  | [], acc, h => by
      obtain ⟨l, hl, _⟩ := h
      simp at hl
  | a :: rest, acc, h => by
      by_cases ha : malformedLine a = true
      · exact ⟨a, by simp [parseLines, ha], by simp, ha⟩
      · obtain ⟨l, hl, hml⟩ := h
        have hlr : l ∈ rest := by
          rcases List.mem_cons.mp hl with rfl | h'
          · exact absurd hml ha
          · exact h'
        simp only [parseLines, if_neg ha]
        cases hseg : lineNameSegs a with
        | nil =>
            obtain ⟨l', h1, h2, h3⟩ :=
              parseLines_error_of_malformed rest acc ⟨l, hlr, hml⟩
            exact ⟨l', h1, by simp [h2], h3⟩
        | cons n ns =>
            obtain ⟨l', h1, h2, h3⟩ :=
              parseLines_error_of_malformed rest
                (mergeForest acc [nameChain n ns (lineCatSegs a) ""]) ⟨l, hlr, hml⟩
            exact ⟨l', h1, by simp [h2], h3⟩

theorem parseLines_ok_of_wellformed :
    ∀ (lines : List String) (acc : List BrowsePath),
      (∀ l ∈ lines, malformedLine l = false) →
      ∃ forest, parseLines lines acc = .ok forest
  | [], acc, _ => ⟨inferF [] [] acc, by simp [parseLines]⟩
  | a :: rest, acc, h => by
      have ha : ¬ malformedLine a = true := by simp [h a (by simp)]
      simp only [parseLines, if_neg ha]
      cases hseg : lineNameSegs a with
      | nil => exact parseLines_ok_of_wellformed rest acc (fun l hl => h l (by simp [hl]))
      | cons n ns =>
          exact parseLines_ok_of_wellformed rest _ (fun l hl => h l (by simp [hl]))

theorem parseLines_first_error :
    ∀ (pre : List String) (acc : List BrowsePath) (l : String) (post : List String),
      (∀ p ∈ pre, malformedLine p = false) → malformedLine l = true →
      parseLines (pre ++ l :: post) acc = .error l
  | [], acc, l, post, _, hml => by simp [parseLines, hml]
  | a :: pre, acc, l, post, hpre, hml => by
      have ha : ¬ malformedLine a = true := by simp [hpre a (by simp)]
      simp only [List.cons_append, parseLines, if_neg ha]
      cases hseg : lineNameSegs a with
      | nil =>
          exact parseLines_first_error pre acc l post
            (fun p hp => hpre p (by simp [hp])) hml
      | cons n ns =>
          exact parseLines_first_error pre _ l post
            (fun p hp => hpre p (by simp [hp])) hml

/-- C8: a shorthand line list containing a malformed line (no name before
any separator) makes the parser fail with a MalformedRuleError identifying
the offending line - processing aborts at the first malformed line and no
forest is produced - while a list with no malformed line parses
successfully; malformed lines are never silently ignored. -/
theorem c8_malformed_fail_fast :
    (∀ lines : List String, (∃ l ∈ lines, malformedLine l = true) →
      ∃ l, parse_browse_paths_from_text lines = .error l ∧ l ∈ lines ∧
        malformedLine l = true) ∧
    (∀ lines : List String, (∀ l ∈ lines, malformedLine l = false) →
      ∃ forest, parse_browse_paths_from_text lines = .ok forest) ∧
    (∀ (pre : List String) (l : String) (post : List String),
      (∀ p ∈ pre, malformedLine p = false) → malformedLine l = true →
      parse_browse_paths_from_text (pre ++ l :: post) = .error l) := by
  refine ⟨?_, ?_, ?_⟩
  · intro lines h
    exact parseLines_error_of_malformed lines [] h
  · intro lines h
    exact parseLines_ok_of_wellformed lines [] h
  · intro pre l post hpre hml
    exact parseLines_first_error pre [] l post hpre hml

/-- Witness for C8: parsing stops at the first malformed line ",bad" and
reports it. -/
theorem c8_malformed_fail_fast_witness :
    parse_browse_paths_from_text (["ok"] ++ ",bad" :: ["later"]) = .error ",bad" :=
  c8_malformed_fail_fast.2.2 ["ok"] ",bad" ["later"] (by decide) (by decide)

/-! ## MediaServerInfo equality (claim C9) -/

/-- C9: MediaServerInfo equality holds exactly when name and version agree;
platform and updated_at never affect it; comparison against None or a value
of another type is False rather than an error. -/
theorem c9_mediaserverinfo_eq (a b : MediaServerInfo) :
    (MediaServerInfo.eq a (.msi b) = true ↔ a.name = b.name ∧ a.version = b.version) ∧
    MediaServerInfo.eq a .pynone = false ∧
    (∀ tag, MediaServerInfo.eq a (.other tag) = false) ∧
    (∀ p u p' u', MediaServerInfo.eq a (.msi b) =
      MediaServerInfo.eq { a with platform := p, updated_at := u }
        (.msi { b with platform := p', updated_at := u' })) := by
  refine ⟨?_, rfl, fun _ => rfl, fun _ _ _ _ => rfl⟩
  simp [MediaServerInfo.eq]

/-! ## set_volume_level range validation (claim C10) -/

/-- C10: set_volume_level raises ValueError for volume below 0 or above 1
without issuing any request, and issues the Playback/Volume request with no
error for volume in the closed unit interval. -/
theorem c10_set_volume_level (v : ℚ) :
    ((v < 0 ∨ v > 1) →
      set_volume_level v = .valueError (toString v ++ " not in range 0-1")) ∧
    (0 ≤ v → v ≤ 1 → set_volume_level v = .request "Playback/Volume" v) := by
  constructor
  · rintro (h | h)
    · simp [set_volume_level, h]
    · have h0 : ¬ v < 0 := by linarith
      simp [set_volume_level, h, h0]
  · intro h0 h1
    have hv0 : ¬ v < 0 := not_lt.mpr h0
    have hv1 : ¬ v > 1 := not_lt.mpr h1
    simp [set_volume_level, hv0, hv1]

/-- Witness for C10 at volume 2 (rejected) and volume 1/2 (accepted). -/
theorem c10_set_volume_level_witness :
    set_volume_level 2 = .valueError (toString (2 : ℚ) ++ " not in range 0-1") ∧
    set_volume_level (1/2) = .request "Playback/Volume" (1/2) :=
  ⟨(c10_set_volume_level 2).1 (Or.inr (by norm_num)),
    (c10_set_volume_level (1/2)).2 (by norm_num) (by norm_num)⟩
